import Mathlib

/-!
# Mimir: the version history engine

A shallow embedding of `page.go` and `server.go` of the Mimir wiki: title
normalisation, the mapping from slugs to paths, the discovery of patch files
(`GetPatches`), the reconstruction of a version (`GetVersion`) and the save
workflow (`Update`).

Conventions of the embedding.

* Go strings are sequences of Unicode code points (`Str`); the byte order of
  UTF-8 coincides with the order of code points. `filepath.Match`, which works
  on bytes, runs on the UTF-8 encoding of its arguments.
* Go `int` is the 64-bit integer of the usual platforms; it is an `Int` here and
  the one place where the width shows (`strconv.Atoi`) clamps explicitly.
* A panic (`check(err)`, an index out of range) is the `error` side of
  `Except Fault`.
* The packages that are not part of the repository are handled as follows:
  `strings`, `fmt`, `path/filepath`, `regexp` and `strconv` are transcribed for
  the calls the program makes (Unix flavour of `path/filepath`); the case
  table of `unicode` and the package `diffmatchpatch` are parameters.
-/

namespace Mimir

/-- A Go string, as the list of its code points. -/
abbrev Str := List Char

/-! ## `strings` -/

/-- The function `strings.HasPrefix`. -/
def HasPrefix (s pre : Str) : Bool := pre.isPrefixOf s

/-- The function `strings.Contains` for a one-character substring. -/
def ContainsRune (s : Str) (c : Char) : Bool := s.contains c

/-- The function `strings.TrimLeft`: drop the leading code points that belong to the cutset. -/
def TrimLeft (s cutset : Str) : Str := s.dropWhile (fun c => cutset.contains c)

/-- The function `strings.TrimRight`: drop the trailing code points that belong to the cutset. -/
def TrimRight (s cutset : Str) : Str := s.rdropWhile (fun c => cutset.contains c)

/-- The function `strings.Trim`: drop leading and trailing code points that belong to the cutset. -/
def Trim (s cutset : Str) : Str := TrimRight (TrimLeft s cutset) cutset

/-- The function `unicode.ToLower` on one code point. The ASCII range is the explicit branch
of the Go function; above it Go consults its case tables, here the parameter
`U`. -/
def toLowerRune (U : Char → Char) (r : Char) : Char :=
  if r.toNat ≤ 127 then
    (if 'A'.toNat ≤ r.toNat ∧ r.toNat ≤ 'Z'.toNat then Char.ofNat (r.toNat + 32) else r)
  else U r

/-- The function `strings.ToLower`: every code point mapped through `unicode.ToLower`. -/
def ToLower (U : Char → Char) (s : Str) : Str := s.map (toLowerRune U)

/-- The function `strings.ReplaceAll s old new` for a one-character `old`. -/
def ReplaceAll (s : Str) (old : Char) (new : Str) : Str :=
  s.flatMap (fun c => if c = old then new else [c])

/-- The function `strings.Split s "/"`. -/
def splitSlash : Str → List Str
  | [] => [[]]
  | c :: t =>
    if c = '/' then [] :: splitSlash t
    else
      match splitSlash t with
      | [] => [[c]]
      | h :: r => (c :: h) :: r

/-- The function `strings.Join elems "/"`. -/
def joinSlash : List Str → Str
  | [] => []
  | [e] => e
  | e :: rest => e ++ '/' :: joinSlash rest

/-! ## `page.go`: `NormaliseTitle` -/

/-- The cutset of the `strings.Trim` call in `NormaliseTitle`: `"/. \t\n\r"`. -/
def titleCutset : Str := ['/', '.', ' ', '\t', '\n', '\r']

/-- The function `NormaliseTitle` of `page.go`. -/
def NormaliseTitle (U : Char → Char) (title : Str) : Str :=
  -- If the title is / or empty, it's the index page
  let title := if title = ['/'] ∨ title = [] then "index".toList else title
  ReplaceAll (ToLower U (Trim title titleCutset)) ' ' ['-']

/-! ## `path/filepath` (Unix) -/

/-- One path element of `filepath.Clean`, pushed on the stack of the elements
kept so far (innermost first). Empty and `.` elements are dropped; `..` removes
the element before it, is dropped at the root of a rooted path and is kept at
the head of a relative one. -/
def cleanStep (rooted : Bool) (out : List Str) (elem : Str) : List Str :=
  if elem = [] ∨ elem = ['.'] then out
  else if elem = ['.', '.'] then
    match out with
    | top :: rest => if top = ['.', '.'] then elem :: out else rest
    | [] => if rooted then [] else [elem]
  else elem :: out

/-- The function `filepath.Clean`. -/
def Clean (path : Str) : Str :=
  if path = [] then ['.']
  else
    let rooted := HasPrefix path ['/']
    let out := (splitSlash path).foldl (cleanStep rooted) []
    let body := joinSlash out.reverse
    if rooted then '/' :: body
    else if body = [] then ['.'] else body

/-- The function `filepath.Join` of two elements. -/
def Join (a b : Str) : Str :=
  if a ≠ [] then Clean (a ++ '/' :: b)
  else if b ≠ [] then Clean b
  else []

/-- The part of a path up to and including its last separator. -/
def upToLastSlash (path : Str) : Str :=
  (path.reverse.dropWhile (fun c => c != '/')).reverse

/-- The function `filepath.Dir`. -/
def Dir (path : Str) : Str := Clean (upToLastSlash path)

/-- The bytes of a Go string. `filepath.Match` indexes and slices its
arguments byte by byte and decodes a code point only where it needs one. -/
abbrev Bytes := List Nat

/-- The UTF-8 encoding of one code point. -/
def utf8EncodeRune (c : Char) : Bytes :=
  let n := c.toNat
  if n < 0x80 then [n]
  else if n < 0x800 then [0xC0 + n / 64, 0x80 + n % 64]
  else if n < 0x10000 then [0xE0 + n / 4096, 0x80 + n / 64 % 64, 0x80 + n % 64]
  else [0xF0 + n / 262144, 0x80 + n / 4096 % 64, 0x80 + n / 64 % 64, 0x80 + n % 64]

/-- The bytes of a string of code points. -/
def utf8 (s : Str) : Bytes := s.flatMap utf8EncodeRune

/-- The code point `utf8.RuneError`. -/
def RuneError : Nat := 0xFFFD

/-- A continuation byte of UTF-8. -/
def isCont (b : Nat) : Bool := decide (0x80 ≤ b ∧ b ≤ 0xBF)

/-- The function `utf8.DecodeRuneInString`: the first code point of the bytes
and its width; an invalid or truncated sequence gives `RuneError` and the
width 1, no byte at all gives `RuneError` and the width 0. -/
def DecodeRuneInString (s : Bytes) : Nat × Nat :=
  match s with
  | [] => (RuneError, 0)
  | s0 :: rest =>
    if s0 < 0x80 then (s0, 1)
    else if s0 < 0xC2 ∨ 0xF4 < s0 then (RuneError, 1)
    else if s0 < 0xE0 then
      match rest with
      | s1 :: _ => if isCont s1 then (s0 % 32 * 64 + s1 % 64, 2) else (RuneError, 1)
      | [] => (RuneError, 1)
    else if s0 < 0xF0 then
      match rest with
      | s1 :: s2 :: _ =>
        if (if s0 = 0xE0 then 0xA0 else 0x80) ≤ s1 ∧
            s1 ≤ (if s0 = 0xED then 0x9F else 0xBF) ∧ isCont s2 = true then
          (s0 % 16 * 4096 + s1 % 64 * 64 + s2 % 64, 3)
        else (RuneError, 1)
      | _ => (RuneError, 1)
    else
      match rest with
      | s1 :: s2 :: s3 :: _ =>
        if (if s0 = 0xF0 then 0x90 else 0x80) ≤ s1 ∧
            s1 ≤ (if s0 = 0xF4 then 0x8F else 0xBF) ∧ isCont s2 = true ∧ isCont s3 = true then
          (s0 % 8 * 262144 + s1 % 64 * 4096 + s2 % 64 * 64 + s3 % 64, 4)
        else (RuneError, 1)
      | _ => (RuneError, 1)

/-- Errors of `filepath.Match`; `outOfFuel` is the bounded recursion of the
embedding running dry, which the bounds chosen below exclude. -/
inductive MatchError where
  | ErrBadPattern
  | outOfFuel
  deriving DecidableEq, Repr

/-- The scanning loop of `scanChunk`: the length-preserving split of the pattern
at the first `*` that is outside a character class. -/
def scanLoop : Bytes → Bool → Bool → Bytes × Bytes
  | [], _, _ => ([], [])
  | c :: t, inrange, escaped =>
    if escaped then
      let r := scanLoop t inrange false
      (c :: r.1, r.2)
    else if c = '\\'.toNat then
      let r := scanLoop t inrange (t != [])
      (c :: r.1, r.2)
    else if c = '['.toNat then
      let r := scanLoop t true false
      (c :: r.1, r.2)
    else if c = ']'.toNat then
      let r := scanLoop t false false
      (c :: r.1, r.2)
    else if c = '*'.toNat ∧ inrange = false then ([], c :: t)
    else
      let r := scanLoop t inrange false
      (c :: r.1, r.2)

/-- The function `scanChunk`: the next segment of the pattern, a star-free string possibly
preceded by stars. Returns `(star, chunk, rest)`. -/
def scanChunk (pattern : Bytes) : Bool × Bytes × Bytes :=
  let p := pattern.dropWhile (fun c => c == '*'.toNat)
  let star := decide (p.length < pattern.length)
  let r := scanLoop p false false
  (star, r.1, r.2)

/-- The function `getEsc`: a possibly escaped character of a character class. -/
def getEsc (chunk : Bytes) : Except MatchError (Nat × Bytes) :=
  match chunk with
  | [] => .error .ErrBadPattern
  | c :: t =>
    if c = '-'.toNat ∨ c = ']'.toNat then .error .ErrBadPattern
    else
      let chunk := if c = '\\'.toNat then t else c :: t
      if chunk = [] then .error .ErrBadPattern
      else
        let d := DecodeRuneInString chunk
        if d.1 = RuneError ∧ d.2 = 1 then .error .ErrBadPattern
        else if chunk.drop d.2 = [] then .error .ErrBadPattern
        else .ok (d.1, chunk.drop d.2)

/-- The loop of `matchChunk` that parses all ranges of a character class;
returns whether `r` is in one of them and the chunk after the closing bracket. -/
def parseRanges : Nat → Bytes → Nat → Nat → Bool → Except MatchError (Bool × Bytes)
  | 0, _, _, _, _ => .error .outOfFuel
  | fuel + 1, chunk, r, nrange, found =>
    if chunk.head? = some ']'.toNat ∧ 0 < nrange then .ok (found, chunk.tail)
    else
      match getEsc chunk with
      | .error e => .error e
      | .ok (lo, chunk) =>
        if chunk.head? = some '-'.toNat then
          match getEsc chunk.tail with
          | .error e => .error e
          | .ok (hi, chunk) =>
            parseRanges fuel chunk r (nrange + 1)
              (found || (decide (lo ≤ r) && decide (r ≤ hi)))
        else
          parseRanges fuel chunk r (nrange + 1)
            (found || (decide (lo ≤ r) && decide (r ≤ lo)))

/-- The loop of `matchChunk`. Once the match has failed the loop goes on over
the chunk, checking that the pattern is well formed without reading `s`.
Returns `none` for "no match" and the remainder of `s` for a match. -/
def matchChunkLoop : Nat → Bytes → Bytes → Bool → Except MatchError (Option Bytes)
  | _, [], s, failed => .ok (if failed then none else some s)
  | 0, _ :: _, _, _ => .error .outOfFuel
  | fuel + 1, c :: chunk, s, failed =>
    let failed := failed || s.isEmpty
    if c = '['.toNat then
      let r := if failed then 0 else (DecodeRuneInString s).1
      let s := if failed then s else s.drop (DecodeRuneInString s).2
      let negated := chunk.head? == some '^'.toNat
      let chunk := if negated then chunk.tail else chunk
      match parseRanges (chunk.length + 1) chunk r 0 false with
      | .error e => .error e
      | .ok (found, chunk) => matchChunkLoop fuel chunk s (failed || (found == negated))
    else if c = '?'.toNat then
      if failed then matchChunkLoop fuel chunk s failed
      else
        matchChunkLoop fuel chunk (s.drop (DecodeRuneInString s).2)
          (s.head? == some '/'.toNat)
    else if c = '\\'.toNat then
      match chunk with
      | [] => .error .ErrBadPattern
      | e :: chunk =>
        if failed then matchChunkLoop fuel chunk s failed
        else matchChunkLoop fuel chunk s.tail (s.head? != some e)
    else
      if failed then matchChunkLoop fuel chunk s failed
      else matchChunkLoop fuel chunk s.tail (s.head? != some c)

/-- The function `matchChunk`: does the chunk match the beginning of `s`? -/
def matchChunk (chunk s : Bytes) : Except MatchError (Option Bytes) :=
  matchChunkLoop chunk.length chunk s false

/-- The loop of `Match` that lets a star swallow `i + 1` bytes of the name,
never a separator. `last` says that the chunk is the last one of the pattern,
in which case the name has to be exhausted. -/
def starLoop (chunk : Bytes) (last : Bool) : Bytes → Except MatchError (Option Bytes)
  | [] => .ok none
  | c :: rest =>
    if c = '/'.toNat then .ok none
    else
      match matchChunk chunk rest with
      | .ok (some t) => if last && t != [] then starLoop chunk last rest else .ok (some t)
      | .ok none => starLoop chunk last rest
      | .error e => .error e

/-- The main loop of `filepath.Match`. -/
def matchLoop : Nat → Bytes → Bytes → Except MatchError Bool
  | 0, _, _ => .error .outOfFuel
  | fuel + 1, pattern, name =>
    if pattern = [] then .ok name.isEmpty
    else
      let sc := scanChunk pattern
      let star := sc.1
      let chunk := sc.2.1
      let pattern := sc.2.2
      if star && chunk.isEmpty then
        -- Trailing * matches rest of string unless it has a /.
        .ok (!name.contains '/'.toNat)
      else
        match matchChunk chunk name with
        | .error e => .error e
        | .ok (some t) =>
          if t.isEmpty || !pattern.isEmpty then matchLoop fuel pattern t
          else if star then
            match starLoop chunk pattern.isEmpty name with
            | .error e => .error e
            | .ok (some t) => matchLoop fuel pattern t
            | .ok none => .ok false
          else .ok false
        | .ok none =>
          if star then
            match starLoop chunk pattern.isEmpty name with
            | .error e => .error e
            | .ok (some t) => matchLoop fuel pattern t
            | .ok none => .ok false
          else .ok false

/-- The function `filepath.Match`, on the bytes of its arguments. Every turn of
the main loop consumes at least one byte of the pattern, which bounds the
recursion. -/
def Match (pattern name : Str) : Except MatchError Bool :=
  matchLoop ((utf8 pattern).length + 1) (utf8 pattern) (utf8 name)

/-! ## `regexp`, `strconv`, `fmt` -/

/-- The regular expression `([0-9]*).md$` matched at the head of the text: the
greedy run of digits first, then any character but a newline, then `md` at the
end of the text. Returns the first submatch. -/
def submatchHere : Str → Option Str
  | [] => none
  | c :: t =>
    match (if c.isDigit then (submatchHere t).map (fun g => c :: g) else none) with
    | some g => some g
    | none => if c ≠ '\n' ∧ t = ['m', 'd'] then some [] else none

/-- The expression `regexp.MustCompile("([0-9]*).md$").FindStringSubmatch(s)[1]`: the first
submatch of the leftmost match, `none` when nothing matches (the indexing
then panics). -/
def FindStringSubmatch1 : Str → Option Str
  | [] => none
  | c :: t =>
    match submatchHere (c :: t) with
    | some g => some g
    | none => FindStringSubmatch1 t

/-- The value of a non-empty string of decimal digits. -/
def digitsValue (s : Str) : Option Nat :=
  if s ≠ [] ∧ s.all Char.isDigit then
    some (s.foldl (fun n c => 10 * n + (c.toNat - '0'.toNat)) 0)
  else none

/-- The function `strconv.Atoi` with a 64-bit `int`: the value and whether the error is
non-nil. A syntax error gives 0, a value out of range the nearest bound. -/
def Atoi (s : Str) : Int × Bool :=
  let neg := s.head? == some '-'
  let body := if s.head? == some '-' ∨ s.head? == some '+' then s.tail else s
  match digitsValue body with
  | none => (0, true)
  | some n =>
    if neg then (if n ≤ 2 ^ 63 then (-(n : Int), false) else (-(2 ^ 63 : Int), true))
    else (if n < 2 ^ 63 then ((n : Int), false) else ((2 ^ 63 - 1 : Int), true))

/-- The verb `%d` of `fmt.Sprintf`. -/
def formatInt (n : Int) : Str :=
  if n < 0 then '-' :: Nat.toDigits 10 n.natAbs else Nat.toDigits 10 n.toNat

/-! ## `diffmatchpatch` -/

/-- The type `diffmatchpatch.Operation`. -/
inductive Operation where
  | DiffDelete
  | DiffInsert
  | DiffEqual
  deriving DecidableEq, Repr

/-- The type `diffmatchpatch.Diff`. -/
structure Diff where
  Op : Operation
  Text : Str
  deriving DecidableEq, Repr

/-- The type `diffmatchpatch.Patch`. -/
structure Patch where
  diffs : List Diff
  Start1 : Int
  Start2 : Int
  Length1 : Int
  Length2 : Int
  deriving DecidableEq, Repr

/-- The methods of `diffmatchpatch.DiffMatchPatch` that the program calls. The
package is not part of the repository: it is a parameter of the embedding.
`PatchFromText` returns `none` for a non-nil error; of `PatchApply` only the
text is kept, the program drops the flags. -/
structure DiffMatchPatch where
  DiffMain : Str → Str → Bool → List Diff
  PatchMake : List Diff → List Patch
  PatchToText : List Patch → Str
  PatchFromText : Str → Option (List Patch)
  PatchApply : List Patch → Str → Str

/-- The text a diff sequence leads to: its insertions and equalities. -/
def diffText2 (diffs : List Diff) : Str :=
  diffs.flatMap (fun d => if d.Op = Operation.DiffDelete then [] else d.Text)

/-- A degenerate implementation of the package, used to evaluate the program on
concrete inputs: a diff is the insertion of the whole new text, a patch
replaces the whole text, and the textual form of a patch is the new text. -/
def wholeTextDmp : DiffMatchPatch where
  DiffMain := fun _ b _ => [⟨Operation.DiffInsert, b⟩]
  PatchMake := fun diffs => [⟨diffs, 0, 0, 0, (diffText2 diffs).length⟩]
  PatchToText := fun ps =>
    match ps.getLast? with
    | none => []
    | some p => diffText2 p.diffs
  PatchFromText := fun s => some [⟨[⟨Operation.DiffInsert, s⟩], 0, 0, 0, s.length⟩]
  PatchApply := fun ps text =>
    match ps.getLast? with
    | none => text
    | some p => diffText2 p.diffs

/-! ## The state: maps and files -/

/-- The ways the program panics. -/
inductive Fault where
  /-- The `check(err)` after `os.Stat(versionsDir)`. -/
  | statVersionsDir
  /-- The index `FindStringSubmatch(s)[1]` on a nil slice. -/
  | submatchIndex
  /-- The `check(err)` after `os.ReadFile`. -/
  | readFile
  /-- The `check(err)` after `dmp.PatchFromText`. -/
  | patchFromText
  /-- The `check(err)` after `os.Create` of the patch file. -/
  | createPatchFile
  deriving DecidableEq, Repr

instance instDecidableEqExcept {ε α : Type} [DecidableEq ε] [DecidableEq α] :
    DecidableEq (Except ε α) := fun a b =>
  match a, b with
  | .ok x, .ok y =>
    if h : x = y then isTrue (by rw [h]) else isFalse (fun h2 => h (by cases h2; rfl))
  | .error x, .error y =>
    if h : x = y then isTrue (by rw [h]) else isFalse (fun h2 => h (by cases h2; rfl))
  | .ok _, .error _ => isFalse (fun h => by cases h)
  | .error _, .ok _ => isFalse (fun h => by cases h)

/-- A Go `map[int][]diffmatchpatch.Patch`, as an association list. -/
abbrev PatchMap := List (Int × List Patch)

/-- The lookup `v, ok := m[k]`. -/
def mapGet (m : PatchMap) (k : Int) : Option (List Patch) :=
  match m with
  | [] => none
  | (k2, v) :: rest => if k2 = k then some v else mapGet rest k

/-- The assignment `m[k] = v`: a present key is overwritten. -/
def mapPut (m : PatchMap) (k : Int) (v : List Patch) : PatchMap :=
  match m with
  | [] => [(k, v)]
  | (k2, v2) :: rest => if k2 = k then (k, v) :: rest else (k2, v2) :: mapPut rest k v

/-- The keys, in the order of the association list (`for k := range m`; Go
fixes no order, the program sorts them). -/
def mapKeys (m : PatchMap) : List Int := m.map Prod.fst

/-- The function `sort.Ints`. -/
def sortInts (keys : List Int) : List Int := keys.insertionSort (fun a b => a ≤ b)

/-- The order of file names in a directory listing. -/
def strLe : Str → Str → Bool
  | [], _ => true
  | _ :: _, [] => false
  | a :: s, b :: t => decide (a.toNat < b.toNat) || (a == b && strLe s t)

/-- The entries of a directory as `os.ReadDir` lists them: sorted by file name. -/
def sortEntries (entries : List (Str × Str)) : List (Str × Str) :=
  entries.insertionSort (fun a b => strLe a.1 b.1 = true)

/-- What the program sees of the file system for one page: the file at
`page.Path` (its content, `none` if it does not exist) and the directory
`versions` next to it: `none` when nothing exists at that path, else the
regular files of the directory as pairs of a file name and a content. A path
`versions` that is a regular file, and a directory inside `versions`, are
not states of this type. -/
structure World where
  page : Option Str
  versions : Option (List (Str × Str))
  deriving DecidableEq, Repr

/-- The fields of `Page` that the history engine reads. -/
structure Page where
  Slug : Str
  Path : Str
  deriving DecidableEq, Repr

/-- Writing a file of a directory (`os.Create` then `WriteString`): an existing
file of that name is truncated and rewritten. -/
def writeFile (entries : List (Str × Str)) (name content : Str) : List (Str × Str) :=
  match entries with
  | [] => [(name, content)]
  | (n, c) :: rest =>
    if n = name then (name, content) :: rest else (n, c) :: writeFile rest name content

/-! ## `page.go`: `GetPatches`, `GetVersion`, `Update` -/

/-- The string `fmt.Sprintf("%s/versions", filepath.Dir(page.Path))`. -/
def versionsDirOf (page : Page) : Str := Dir page.Path ++ "/versions".toList

/-- The string `fmt.Sprintf("%s/%s_*.md", versionsDir, page.Title)`. -/
def patchPattern (versionsDir title : Str) : Str :=
  versionsDir ++ '/' :: title ++ "_*.md".toList

/-- The function that `GetPatches` hands to `filepath.WalkDir`, called on the
path `s`; `file` is the content when `s` is a regular file. Returns the map and
whether the function returned an error, which stops the walk. -/
def walkFn (dmp : DiffMatchPatch) (pattern : Str) (patchesMap : PatchMap) (s : Str)
    (file : Option Str) : Except Fault (PatchMap × Bool) :=
  match Match pattern s with
  | .error _ => .ok (patchesMap, true)
  | .ok false => .ok (patchesMap, false)
  | .ok true =>
    match FindStringSubmatch1 s with
    | none => .error .submatchIndex
    | some timestamp =>
      match file with
      | none => .error .readFile
      | some bytes =>
        match dmp.PatchFromText bytes with
        | none => .error .patchFromText
        | some patch =>
          -- the error of Atoi is dropped
          let timestampInt := (Atoi timestamp).1
          .ok (mapPut patchesMap timestampInt patch, false)

/-- The walk over the files of the directory, in the order of the listing; the
path of a file is `filepath.Join(versionsDir, name)`. -/
def walkEntries (dmp : DiffMatchPatch) (pattern versionsDir : Str) :
    List (Str × Str) → PatchMap → Except Fault PatchMap
  | [], patchesMap => .ok patchesMap
  | (name, content) :: rest, patchesMap =>
    match walkFn dmp pattern patchesMap (Join versionsDir name) (some content) with
    | .error f => .error f
    | .ok (m, true) => .ok m
    | .ok (m, false) => walkEntries dmp pattern versionsDir rest m

/-- The function `Page.GetPatches`. -/
def GetPatches (dmp : DiffMatchPatch) (U : Char → Char) (page : Page) (w : World) :
    Except Fault PatchMap :=
  let title := NormaliseTitle U page.Slug
  let versionsDir := versionsDirOf page
  match w.page with
  | none => .ok []
  | some _ =>
    match w.versions with
    | none => .error .statVersionsDir
    | some entries =>
      let pattern := patchPattern versionsDir title
      -- WalkDir calls the function on the root first
      match walkFn dmp pattern [] versionsDir none with
      | .error f => .error f
      | .ok (m, true) => .ok m
      | .ok (m, false) => walkEntries dmp pattern versionsDir (sortEntries entries) m

/-- The message of the error of `GetVersion`. -/
def noVersionError : Str := "No version exists for this timestamp.".toList

/-- The inner loop of `GetVersion`: the patches of the keys at the indices
`j, j+1, ...` are applied in turn until the index passes `i`. -/
def applyLoop (dmp : DiffMatchPatch) (patches : PatchMap) (i : Nat) :
    List Int → Nat → Str → Str
  | [], _, output => output
  | v :: rest, j, output =>
    if j > i then output
    else applyLoop dmp patches i rest (j + 1) (dmp.PatchApply ((mapGet patches v).getD []) output)

/-- The outer loop of `GetVersion` over the sorted keys, from index `i` on: at
the first key equal to the timestamp the inner loop runs over all the keys.
Returns `output` and `versionIndex`. -/
def findLoop (dmp : DiffMatchPatch) (patches : PatchMap) (keys : List Int) (timestamp : Int) :
    List Int → Nat → Str × Int
  | [], _ => ([], 0)
  | v :: rest, i =>
    if v = timestamp then (applyLoop dmp patches i keys 0 [], (i : Int))
    else findLoop dmp patches keys timestamp rest (i + 1)

/-- The body of `GetVersion` after the call of `GetPatches`: the text, the index
and the error (`none` for nil). -/
def versionOf (dmp : DiffMatchPatch) (patches : PatchMap) (timestamp : Int) :
    Str × Int × Option Str :=
  -- Does the supplied key exist in the patches map?
  match mapGet patches timestamp with
  | none => ([], -1, some noVersionError)
  | some _ =>
    let keys := sortInts (mapKeys patches)
    let r := findLoop dmp patches keys timestamp keys 0
    (r.1, r.2, none)

/-- The function `Page.GetVersion`. -/
def GetVersion (dmp : DiffMatchPatch) (U : Char → Char) (page : Page) (w : World)
    (timestamp : Int) : Except Fault (Str × Int × Option Str) :=
  match GetPatches dmp U page w with
  | .error f => .error f
  | .ok patches => .ok (versionOf dmp patches timestamp)

/-- The string `fmt.Sprintf("%s_%d.md", page.Title, timestamp)`: the name of a patch file. -/
def patchFileName (title : Str) (timestamp : Int) : Str :=
  title ++ '_' :: formatInt timestamp ++ ".md".toList

/-- The function `Page.Update`, on the file system: `newContent` is the form value and
`timestamp` the value of `time.Now().UnixMilli()`. The patch file is created in
the directory `versions`; a name with a separator points below it, where the
world has no directory, and `os.Create` fails. -/
def Update (dmp : DiffMatchPatch) (U : Char → Char) (page : Page) (w : World)
    (newContent : Str) (timestamp : Int) : Except Fault World :=
  let title := NormaliseTitle U page.Slug
  let rawContent := w.page.getD []
  -- os.Mkdir creates the directory when it is missing
  let w1 : World := { w with versions := some (w.versions.getD []) }
  match GetPatches dmp U page w1 with
  | .error f => .error f
  | .ok patches =>
    let diffs :=
      if patches.length = 0 then dmp.DiffMain [] newContent false
      else dmp.DiffMain rawContent newContent false
    let patch := dmp.PatchMake diffs
    let name := patchFileName title timestamp
    if ContainsRune name '/' then .error .createPatchFile
    else
      .ok { page := some newContent,
            versions := some (writeFile (w.versions.getD []) name (dmp.PatchToText patch)) }

/-- A sequence of saves through `Page.Update`, each with its content and its
version identifier. -/
def saveAll (dmp : DiffMatchPatch) (U : Char → Char) (page : Page) :
    World → List (Str × Int) → Except Fault World
  | w, [] => .ok w
  | w, (content, timestamp) :: rest =>
    match Update dmp U page w content timestamp with
    | .error f => .error f
    | .ok w2 => saveAll dmp U page w2 rest

/-! ## `server.go`: `SlugToAbsolutePath` -/

/-- The field of `Server` that the function reads. -/
structure Server where
  Path : Str
  deriving DecidableEq, Repr

/-- The function `TitleToFilename`. -/
def TitleToFilename (title : Str) : Str := title ++ ".md".toList

/-- The function `Server.SlugToAbsolutePath`: the path and the error (`none` for nil). -/
def SlugToAbsolutePath (U : Char → Char) (server : Server) (slug : Str) : Str × Option Str :=
  let title := NormaliseTitle U slug
  let absolutePath := Join server.Path (TitleToFilename title)
  if !HasPrefix absolutePath server.Path then
    ([], some "Path outside of served directory.".toList)
  -- .git directory is forbidden
  else if HasPrefix absolutePath (Join server.Path ".git".toList) then
    ([], some "Path is forbidden.".toList)
  else (absolutePath, none)

/-- The function `UrlParts`: `strings.Split(url, "/")[1:]`. -/
def UrlParts (url : Str) : List Str := (splitSlash url).tail

/-- The elements that `filepath.Clean` keeps of a path, outermost first, and
whether the path is rooted. -/
def cleanElements (path : Str) : Bool × List Str :=
  (HasPrefix path ['/'],
    ((splitSlash path).foldl (cleanStep (HasPrefix path ['/'])) []).reverse)

/-- A path lies inside a directory, or is the directory, when both are rooted
or both are relative, the elements of the path continue the elements of the
directory, and no `..` follows them. -/
def insideDir (dir path : Str) : Bool :=
  (cleanElements dir).1 == (cleanElements path).1 &&
    (cleanElements dir).2.isPrefixOf (cleanElements path).2 &&
    !((cleanElements path).2.drop (cleanElements dir).2.length).contains "..".toList

/-! ## The reconstruction, in the words of the specification -/

/-- The step of a replay: the next patch applied to the output so far. -/
def replayStep (dmp : DiffMatchPatch) (output : Str) (entry : Int × List Patch) : Str :=
  dmp.PatchApply entry.2 output

/-- The content of a version as the specification words it: starting from the
empty string, the patch of every key less than or equal to the target is
applied, in ascending order of the keys, each to the output of the one before. -/
def specReconstruct (dmp : DiffMatchPatch) (patches : PatchMap) (target : Int) : Str :=
  ((patches.insertionSort (fun a b => a.1 ≤ b.1)).filter (fun e => decide (e.1 ≤ target))).foldl
    (replayStep dmp) []

/-- The zero-based rank of the target among the keys: the number of keys that
are strictly smaller. -/
def specRank (patches : PatchMap) (target : Int) : Nat :=
  ((mapKeys patches).filter (fun k => decide (k < target))).length

/-! ## Title normalisation, in the words of the specification -/

/-- What the specification says of a normalised code point: lowercased, and a
space turned into a hyphen. -/
def lowerHyphen (U : Char → Char) (c : Char) : Char :=
  if toLowerRune U c = ' ' then '-' else toLowerRune U c

/-- An ASCII upper-case letter. -/
abbrev isUpperAscii (c : Char) : Prop := 'A'.toNat ≤ c.toNat ∧ c.toNat ≤ 'Z'.toNat

/-- What is used of the case table of `unicode`: the lower-case form of a code
point above the ASCII range is neither a character of the cutset (space
included) nor an ASCII upper-case letter. -/
def CaseTableOK (U : Char → Char) : Prop :=
  ∀ c : Char, 127 < c.toNat → U c ∉ titleCutset ∧ ¬ isUpperAscii (U c)

/-- What the program expects of the diff package: the textual form of a patch
that was made from a diff decodes to that patch, and a patch made from the diff
of `a` and `b` turns `a` into `b`. -/
structure Lawful (dmp : DiffMatchPatch) : Prop where
  codec : ∀ a b, dmp.PatchFromText (dmp.PatchToText (dmp.PatchMake (dmp.DiffMain a b false))) =
    some (dmp.PatchMake (dmp.DiffMain a b false))
  apply : ∀ a b, dmp.PatchApply (dmp.PatchMake (dmp.DiffMain a b false)) a = b

/-- The replay of a whole history: every patch, in ascending order of the keys,
from the empty string. -/
def replayAll (dmp : DiffMatchPatch) (patches : PatchMap) : Str :=
  (patches.insertionSort (fun a b => a.1 ≤ b.1)).foldl (replayStep dmp) []

/-- The stacks that `filepath.Clean` builds, innermost element first: no empty
element, no `.`, no separator inside an element, nothing but `..` below a
`..`, and no `..` at all in a rooted path. -/
structure GoodStack (rooted : Bool) (st : List Str) : Prop where
  plain : ∀ e ∈ st, e ≠ [] ∧ e ≠ ['.'] ∧ '/' ∉ e
  dots : st.Pairwise (fun a b => a = ['.', '.'] → b = ['.', '.'])
  root : rooted = true → ['.', '.'] ∉ st

/-! ## Concrete inputs -/

/-- A page whose title holds an opening bracket, served from `/w`. -/
def bracketPage : Page := ⟨"a[b".toList, "/w/a[b.md".toList⟩

/-- The page `foo`, served from `/w`. -/
def fooPage : Page := ⟨"foo".toList, "/w/foo.md".toList⟩

/-- A new document: no canonical content, no directory `versions`. -/
def newWorld : World := ⟨none, none⟩

/-- Canonical content seeded by hand, no directory `versions`. -/
def seededWorld : World := ⟨some "seed".toList, none⟩

/-- The page `foo` with its content and one patch file of its own. -/
def fooWorld : World := ⟨some "x".toList, some [("foo_5.md".toList, "x".toList)]⟩

/-- The page `foo` with its content, next to a patch file of the document
`foo_bar` and a file whose suffix is not a number. -/
def crowdedWorld (c1 c2 : Str) : World :=
  ⟨some [], some [("foo_bar_123.md".toList, c1), ("foo_x.md".toList, c2)]⟩

/-- The mapping that `GetPatches` returns in `fooWorld`, with the degenerate
diff package. -/
def fooPatches : PatchMap := [(5, [⟨[⟨Operation.DiffInsert, "x".toList⟩], 0, 0, 0, 1⟩])]

/-- A map of two versions, held in the order 7, 3. -/
def samplePatches : PatchMap :=
  [(7, [⟨[⟨Operation.DiffInsert, "ab".toList⟩], 0, 0, 0, 2⟩]),
   (3, [⟨[⟨Operation.DiffInsert, "a".toList⟩], 0, 0, 0, 1⟩])]

/-! ## Lemmas on maps and sorted keys -/

theorem mapGet_isSome_iff (m : PatchMap) (k : Int) : (mapGet m k).isSome ↔ k ∈ mapKeys m := by
  induction m with
  | nil => simp [mapGet, mapKeys]
  | cons e rest ih =>
    obtain ⟨k2, v⟩ := e
    by_cases h : k2 = k
    · simp [mapGet, mapKeys, h]
    · have h2 : ¬ k = k2 := fun h3 => h h3.symm
      simpa [mapGet, mapKeys, h, h2] using ih

theorem mapGet_eq_none_iff (m : PatchMap) (k : Int) : mapGet m k = none ↔ k ∉ mapKeys m := by
  rw [← mapGet_isSome_iff]
  cases mapGet m k <;> simp

theorem mapGet_of_mem (m : PatchMap) (hnd : (mapKeys m).Nodup) (e : Int × List Patch)
    (he : e ∈ m) : mapGet m e.1 = some e.2 := by
  induction m with
  | nil => cases he
  | cons x rest ih =>
    obtain ⟨k2, v⟩ := x
    simp only [mapKeys, List.map_cons, List.nodup_cons] at hnd
    rcases List.mem_cons.1 he with h | h
    · subst h
      simp [mapGet]
    · have hne : k2 ≠ e.1 := by
        intro hk
        exact hnd.1 (hk ▸ List.mem_map_of_mem Prod.fst h)
      simp only [mapGet, hne, if_false]
      exact ih hnd.2 h

theorem applyLoop_eq_foldl (dmp : DiffMatchPatch) (patches : PatchMap) (i : Nat) (l : List Int)
    (j : Nat) (output : Str) :
    applyLoop dmp patches i l j output =
      (l.take (i + 1 - j)).foldl
        (fun out k => dmp.PatchApply ((mapGet patches k).getD []) out) output := by
  induction l generalizing j output with
  | nil => simp [applyLoop]
  | cons v rest ih =>
    by_cases hj : j > i
    · have h0 : i + 1 - j = 0 := by omega
      simp [applyLoop, hj, h0]
    · have h1 : i + 1 - j = (i + 1 - (j + 1)) + 1 := by omega
      simp only [applyLoop, hj, if_false]
      rw [ih, h1, List.take_succ_cons, List.foldl_cons]

theorem findLoop_of_mem (dmp : DiffMatchPatch) (patches : PatchMap) (keys : List Int)
    (timestamp : Int) (l : List Int) (i : Nat) (h : timestamp ∈ l) :
    findLoop dmp patches keys timestamp l i =
      (applyLoop dmp patches (i + l.indexOf timestamp) keys 0 [],
        ((i + l.indexOf timestamp : Nat) : Int)) := by
  induction l generalizing i with
  | nil => cases h
  | cons v rest ih =>
    by_cases hv : v = timestamp
    · subst hv
      simp [findLoop]
    · have hmem : timestamp ∈ rest := by
        rcases List.mem_cons.1 h with h2 | h2
        · exact absurd h2.symm hv
        · exact h2
      rw [findLoop, if_neg hv, ih (i + 1) hmem, List.indexOf_cons_ne _ hv]
      have e : i + 1 + List.indexOf timestamp rest = i + (List.indexOf timestamp rest).succ := by
        omega
      rw [e]

theorem take_indexOf_of_sorted (l : List Int) (hs : l.Sorted (fun a b => a < b)) (t : Int)
    (ht : t ∈ l) :
    l.take (l.indexOf t + 1) = l.filter (fun k => decide (k ≤ t)) ∧
      l.indexOf t = (l.filter (fun k => decide (k < t))).length := by
  induction l with
  | nil => cases ht
  | cons a rest ih =>
    have hrel : ∀ b ∈ rest, a < b := List.rel_of_sorted_cons hs
    by_cases ha : a = t
    · subst ha
      have h1 : rest.filter (fun k => decide (k ≤ a)) = [] := by
        rw [List.filter_eq_nil_iff]
        intro b hb
        have := hrel b hb
        simp only [decide_eq_true_eq]
        omega
      have h2 : rest.filter (fun k => decide (k < a)) = [] := by
        rw [List.filter_eq_nil_iff]
        intro b hb
        have := hrel b hb
        simp only [decide_eq_true_eq]
        omega
      simp [List.filter_cons, h1, h2]
    · have hmem : t ∈ rest := by
        rcases List.mem_cons.1 ht with h2 | h2
        · exact absurd h2.symm ha
        · exact h2
      have hlt : a < t := hrel t hmem
      have ih2 := ih hs.of_cons hmem
      rw [List.indexOf_cons_ne _ ha]
      have hle : a ≤ t := le_of_lt hlt
      simp only [List.take_succ_cons, List.filter_cons, hle, hlt, decide_True, if_true,
        List.length_cons]
      exact ⟨by rw [← ih2.1], by rw [← ih2.2]⟩

theorem sortInts_sorted_lt (keys : List Int) (hnd : keys.Nodup) :
    (sortInts keys).Sorted (fun a b => a < b) := by
  have hs : (sortInts keys).Sorted (fun a b => a ≤ b) := List.sorted_insertionSort _ keys
  have hn : (sortInts keys).Nodup := ((List.perm_insertionSort _ keys).nodup_iff).2 hnd
  exact hs.lt_of_le hn

theorem mem_sortInts (keys : List Int) (k : Int) : k ∈ sortInts keys ↔ k ∈ keys :=
  List.mem_insertionSort _

theorem map_fst_sortEntriesByKey (patches : PatchMap) :
    (patches.insertionSort (fun a b => a.1 ≤ b.1)).map Prod.fst = sortInts (mapKeys patches) := by
  unfold sortInts mapKeys
  exact List.map_insertionSort _ _ Prod.fst patches (fun a _ b _ => Iff.rfl)

theorem versionOf_of_mem (dmp : DiffMatchPatch) (patches : PatchMap) (timestamp : Int)
    (hnd : (mapKeys patches).Nodup) (hk : timestamp ∈ mapKeys patches) :
    versionOf dmp patches timestamp =
      (specReconstruct dmp patches timestamp, (specRank patches timestamp : Int), none) := by
  have hsome : (mapGet patches timestamp).isSome := (mapGet_isSome_iff _ _).2 hk
  obtain ⟨v, hv⟩ := Option.isSome_iff_exists.1 hsome
  have hmem : timestamp ∈ sortInts (mapKeys patches) := (mem_sortInts _ _).2 hk
  have hsorted := sortInts_sorted_lt _ hnd
  obtain ⟨htake, hidx⟩ := take_indexOf_of_sorted _ hsorted timestamp hmem
  have hrank :
      List.indexOf timestamp (sortInts (mapKeys patches)) = specRank patches timestamp := by
    rw [hidx]
    unfold specRank
    exact ((List.perm_insertionSort _ (mapKeys patches)).filter _).length_eq
  have hcontent :
      applyLoop dmp patches (0 + List.indexOf timestamp (sortInts (mapKeys patches)))
          (sortInts (mapKeys patches)) 0 [] = specReconstruct dmp patches timestamp := by
    rw [applyLoop_eq_foldl]
    simp only [Nat.zero_add, Nat.sub_zero]
    rw [htake]
    unfold specReconstruct
    rw [← map_fst_sortEntriesByKey, List.filter_map, List.foldl_map]
    apply List.foldl_ext
    intro out e he
    have he2 : e ∈ patches := by
      have := List.mem_of_mem_filter he
      exact (List.mem_insertionSort _).1 this
    simp [replayStep, mapGet_of_mem patches hnd e he2]
  simp only [versionOf, hv]
  rw [findLoop_of_mem dmp patches _ timestamp _ 0 hmem, hcontent]
  simp [hrank]

/-! ## Lemmas on title normalisation -/

theorem ReplaceAll_space_eq_map (s : Str) :
    ReplaceAll s ' ' ['-'] = s.map (fun c => if c = ' ' then '-' else c) := by
  induction s with
  | nil => rfl
  | cons c t ih =>
    have h : ReplaceAll (c :: t) ' ' ['-'] =
        (if c = ' ' then ['-'] else [c]) ++ ReplaceAll t ' ' ['-'] := by
      simp [ReplaceAll]
    rw [h, ih]
    by_cases hc : c = ' ' <;> simp [hc]

theorem NormaliseTitle_eq_map (U : Char → Char) (title : Str) :
    NormaliseTitle U title =
      (Trim (if title = ['/'] ∨ title = [] then "index".toList else title) titleCutset).map
        (lowerHyphen U) := by
  unfold NormaliseTitle
  simp only [ReplaceAll_space_eq_map, ToLower, List.map_map]
  rfl

theorem toLowerRune_upper (c : Char) (U : Char → Char) (h : isUpperAscii c) :
    toLowerRune U c ∉ titleCutset ∧ ¬ isUpperAscii (toLowerRune U c) := by
  have e : toLowerRune U c = Char.ofNat (c.toNat + 32) := by
    unfold toLowerRune
    have h127 : c.toNat ≤ 127 := le_trans h.2 (by decide)
    rw [if_pos h127, if_pos h]
  rw [e]
  have h65 : 65 ≤ c.toNat := h.1
  have h90 : c.toNat ≤ 90 := h.2
  generalize c.toNat = n at h65 h90
  interval_cases n <;> decide

theorem toLowerRune_props (U : Char → Char) (hU : CaseTableOK U) (c : Char) :
    ¬ isUpperAscii (toLowerRune U c) ∧
      (c ∉ titleCutset → toLowerRune U c ∉ titleCutset) := by
  by_cases h127 : c.toNat ≤ 127
  · by_cases hup : isUpperAscii c
    · exact ⟨(toLowerRune_upper c U hup).2, fun _ => (toLowerRune_upper c U hup).1⟩
    · have e : toLowerRune U c = c := by
        unfold toLowerRune
        rw [if_pos h127]
        exact if_neg hup
      rw [e]
      exact ⟨hup, fun h => h⟩
  · have e : toLowerRune U c = U c := by
      unfold toLowerRune
      rw [if_neg h127]
    rw [e]
    have := hU c (by omega)
    exact ⟨this.2, fun _ => this.1⟩

theorem lowerHyphen_props (U : Char → Char) (hU : CaseTableOK U) (c : Char) :
    lowerHyphen U c ≠ ' ' ∧ ¬ isUpperAscii (lowerHyphen U c) ∧
      (c ∉ titleCutset → lowerHyphen U c ∉ titleCutset) := by
  obtain ⟨h1, h2⟩ := toLowerRune_props U hU c
  unfold lowerHyphen
  by_cases hs : toLowerRune U c = ' '
  · rw [if_pos hs]
    refine ⟨by decide, by decide, fun _ => by decide⟩
  · rw [if_neg hs]
    exact ⟨hs, h1, h2⟩

theorem dropWhile_head_not {p : Char → Bool} (s : Str) (x : Char) (rest : Str)
    (h : s.dropWhile p = x :: rest) : p x = false := by
  induction s with
  | nil => cases h
  | cons a t ih =>
    by_cases ha : p a = true
    · rw [List.dropWhile_cons_of_pos ha] at h
      exact ih h
    · rw [List.dropWhile_cons_of_neg ha] at h
      cases h
      simpa using ha

theorem Trim_head_not_mem (s cutset : Str) (c : Char) (h : (Trim s cutset).head? = some c) :
    c ∉ cutset := by
  unfold Trim TrimRight TrimLeft at h
  obtain ⟨t, ht⟩ := List.rdropWhile_prefix (fun c => cutset.contains c)
    (l := s.dropWhile (fun c => cutset.contains c))
  cases hr : List.rdropWhile (fun c => cutset.contains c)
      (s.dropWhile (fun c => cutset.contains c)) with
  | nil => rw [hr] at h; cases h
  | cons x rest =>
    rw [hr] at h ht
    simp only [List.head?_cons, Option.some.injEq] at h
    subst h
    have := dropWhile_head_not s x (rest ++ t) (by rw [← ht]; rfl)
    simpa using this

theorem Trim_last_not_mem (s cutset : Str) (c : Char) (h : (Trim s cutset).getLast? = some c) :
    c ∉ cutset := by
  unfold Trim TrimRight at h
  have hne : List.rdropWhile (fun c => cutset.contains c) (TrimLeft s cutset) ≠ [] := by
    intro h0
    rw [h0] at h
    cases h
  have := List.rdropWhile_last_not (fun c => cutset.contains c) (TrimLeft s cutset) hne
  rw [List.getLast?_eq_getLast _ hne] at h
  simp only [Option.some.injEq] at h
  rw [h] at this
  simpa using this

theorem caseTableOK_id : CaseTableOK id := by
  intro c h
  refine ⟨?_, ?_⟩
  · intro hm
    simp only [titleCutset, id, List.mem_cons, List.mem_singleton, List.not_mem_nil, or_false] at hm
    rcases hm with h1 | h1 | h1 | h1 | h1 | h1 <;> (rw [h1] at h; exact absurd h (by decide))
  · intro hu
    have h2 : (id c).toNat ≤ 'Z'.toNat := hu.2
    have h3 : 'Z'.toNat = 90 := by decide
    simp only [id] at h2
    omega

/-! ## A title normalised twice -/

theorem Trim_eq_self (s cutset : Str) (hh : ∀ c, s.head? = some c → c ∉ cutset)
    (hl : ∀ c, s.getLast? = some c → c ∉ cutset) : Trim s cutset = s := by
  have h1 : TrimLeft s cutset = s := by
    unfold TrimLeft
    cases s with
    | nil => rfl
    | cons a t =>
      have ha : a ∉ cutset := hh a rfl
      exact List.dropWhile_cons_of_neg (by simpa using ha)
  unfold Trim
  rw [h1]
  unfold TrimRight
  rw [List.rdropWhile_eq_self_iff]
  intro hne
  have := hl (s.getLast hne) (List.getLast?_eq_getLast _ hne)
  simpa using this

theorem lowerHyphen_idem (U : Char → Char)
    (hidem : ∀ c, toLowerRune U (toLowerRune U c) = toLowerRune U c) (c : Char) :
    lowerHyphen U (lowerHyphen U c) = lowerHyphen U c := by
  by_cases hs : toLowerRune U c = ' '
  · have e : lowerHyphen U c = '-' := by
      unfold lowerHyphen
      rw [if_pos hs]
    rw [e]
    rfl
  · have e : lowerHyphen U c = toLowerRune U c := by
      unfold lowerHyphen
      rw [if_neg hs]
    rw [e]
    unfold lowerHyphen
    rw [hidem c, if_neg hs]

/-- A title whose normal form is empty is not a fixed point: the empty title is
the index page. -/
theorem NormaliseTitle_twice_of_eq_nil (U : Char → Char) (title : Str)
    (h : NormaliseTitle U title = []) :
    NormaliseTitle U (NormaliseTitle U title) = "index".toList ∧
      NormaliseTitle U (NormaliseTitle U title) ≠ NormaliseTitle U title := by
  rw [h]
  have e : NormaliseTitle U [] = "index".toList := rfl
  rw [e]
  exact ⟨rfl, by decide⟩

/-- Apart from the titles whose normal form is empty, normalising twice is
normalising once, as soon as lowercasing a code point twice is lowercasing it
once. -/
theorem NormaliseTitle_twice_of_ne_nil (U : Char → Char) (hU : CaseTableOK U)
    (hidem : ∀ c, toLowerRune U (toLowerRune U c) = toLowerRune U c) (title : Str)
    (h : NormaliseTitle U title ≠ []) :
    NormaliseTitle U (NormaliseTitle U title) = NormaliseTitle U title := by
  have hhead : ∀ c, (NormaliseTitle U title).head? = some c → c ∉ titleCutset := by
    intro c hc
    rw [NormaliseTitle_eq_map, List.head?_map] at hc
    obtain ⟨d, hd, hdc⟩ := Option.map_eq_some'.1 hc
    rw [← hdc]
    exact (lowerHyphen_props U hU d).2.2 (Trim_head_not_mem _ _ d hd)
  have hlast : ∀ c, (NormaliseTitle U title).getLast? = some c → c ∉ titleCutset := by
    intro c hc
    rw [NormaliseTitle_eq_map, List.getLast?_map] at hc
    obtain ⟨d, hd, hdc⟩ := Option.map_eq_some'.1 hc
    rw [← hdc]
    exact (lowerHyphen_props U hU d).2.2 (Trim_last_not_mem _ _ d hd)
  have hslash : NormaliseTitle U title ≠ ['/'] := by
    intro e
    have := hhead '/' (by rw [e]; rfl)
    exact this (by decide)
  have hif : (if NormaliseTitle U title = ['/'] ∨ NormaliseTitle U title = []
      then "index".toList else NormaliseTitle U title) = NormaliseTitle U title := by
    rw [if_neg]
    intro hor
    rcases hor with h1 | h1
    · exact hslash h1
    · exact h h1
  rw [NormaliseTitle_eq_map U (NormaliseTitle U title), hif,
    Trim_eq_self _ _ hhead hlast]
  rw [NormaliseTitle_eq_map U title, List.map_map]
  apply List.map_congr_left
  intro c _
  exact lowerHyphen_idem U hidem c

theorem toLowerRune_id_idem (c : Char) : toLowerRune id (toLowerRune id c) = toLowerRune id c := by
  by_cases h127 : c.toNat ≤ 127
  · by_cases hup : isUpperAscii c
    · have e : toLowerRune id c = Char.ofNat (c.toNat + 32) := by
        unfold toLowerRune
        rw [if_pos h127, if_pos hup]
      rw [e]
      have h65 : 65 ≤ c.toNat := hup.1
      have h90 : c.toNat ≤ 90 := hup.2
      generalize c.toNat = n at h65 h90
      interval_cases n <;> decide
    · have e : toLowerRune id c = c := by
        unfold toLowerRune
        rw [if_pos h127]
        exact if_neg hup
      rw [e, e]
  · have e : toLowerRune id c = c := by
      unfold toLowerRune
      rw [if_neg h127]
      rfl
    rw [e, e]

theorem NormaliseTitle_twice_hello :
    NormaliseTitle id (NormaliseTitle id " Hello World. ".toList) =
      NormaliseTitle id " Hello World. ".toList :=
  NormaliseTitle_twice_of_ne_nil id caseTableOK_id toLowerRune_id_idem " Hello World. ".toList
    (by decide)

/-! ## Lemmas on the walk -/

theorem walkFn_of_match (dmp : DiffMatchPatch) (pattern : Str) (m : PatchMap) (s bytes ts : Str)
    (patch : List Patch) (hM : Match pattern s = .ok true)
    (hF : FindStringSubmatch1 s = some ts) (hP : dmp.PatchFromText bytes = some patch) :
    walkFn dmp pattern m s (some bytes) = .ok (mapPut m (Atoi ts).1 patch, false) := by
  simp only [walkFn, hM, hF, hP]

theorem mapKeys_mapPut (m : PatchMap) (k : Int) (v : List Patch) :
    mapKeys (mapPut m k v) = if k ∈ mapKeys m then mapKeys m else mapKeys m ++ [k] := by
  induction m with
  | nil => simp [mapPut, mapKeys]
  | cons e rest ih =>
    obtain ⟨k2, v2⟩ := e
    by_cases h : k2 = k
    · subst h
      simp [mapPut, mapKeys]
    · have h2 : ¬ k = k2 := fun h3 => h h3.symm
      simp only [mapKeys] at ih
      by_cases hm : k ∈ List.map Prod.fst rest
      · simp [mapPut, mapKeys, h, h2, ih, hm]
      · simp [mapPut, mapKeys, h, h2, ih, hm]

theorem mapPut_nodup (m : PatchMap) (k : Int) (v : List Patch) (h : (mapKeys m).Nodup) :
    (mapKeys (mapPut m k v)).Nodup := by
  rw [mapKeys_mapPut]
  by_cases hm : k ∈ mapKeys m
  · rw [if_pos hm]
    exact h
  · rw [if_neg hm]
    exact List.Nodup.append h (List.nodup_singleton k) (by simpa using hm)

theorem walkFn_nodup (dmp : DiffMatchPatch) (pattern : Str) (m : PatchMap) (s : Str)
    (file : Option Str) (r : PatchMap × Bool) (hm : (mapKeys m).Nodup)
    (h : walkFn dmp pattern m s file = .ok r) : (mapKeys r.1).Nodup := by
  unfold walkFn at h
  split at h
  · cases h; exact hm
  · cases h; exact hm
  · split at h
    · cases h
    · split at h
      · cases h
      · split at h
        · cases h
        · cases h
          exact mapPut_nodup _ _ _ hm

theorem walkEntries_nodup (dmp : DiffMatchPatch) (pattern versionsDir : Str)
    (entries : List (Str × Str)) (m r : PatchMap) (hm : (mapKeys m).Nodup)
    (h : walkEntries dmp pattern versionsDir entries m = .ok r) : (mapKeys r).Nodup := by
  induction entries generalizing m with
  | nil =>
    simp only [walkEntries] at h
    cases h
    exact hm
  | cons e rest ih =>
    obtain ⟨name, content⟩ := e
    simp only [walkEntries] at h
    cases hw : walkFn dmp pattern m (Join versionsDir name) (some content) with
    | error f => rw [hw] at h; cases h
    | ok q =>
      have hq := walkFn_nodup dmp pattern m _ _ q hm hw
      obtain ⟨m2, stop⟩ := q
      rw [hw] at h
      cases stop with
      | true => cases h; exact hq
      | false => exact ih m2 hq h

/-- The mapping that `GetPatches` returns is a Go map: its keys are distinct. -/
theorem GetPatches_nodup (dmp : DiffMatchPatch) (U : Char → Char) (page : Page) (w : World)
    (patches : PatchMap) (h : GetPatches dmp U page w = .ok patches) :
    (mapKeys patches).Nodup := by
  unfold GetPatches at h
  cases hp : w.page with
  | none =>
    simp only [hp] at h
    cases h
    exact List.nodup_nil
  | some c =>
    cases hv : w.versions with
    | none =>
      simp only [hp, hv] at h
      cases h
    | some entries =>
      simp only [hp, hv] at h
      cases hw : walkFn dmp (patchPattern (versionsDirOf page) (NormaliseTitle U page.Slug)) []
          (versionsDirOf page) none with
      | error f =>
        rw [hw] at h
        cases h
      | ok q =>
        have hq := walkFn_nodup dmp _ [] _ none q List.nodup_nil hw
        obtain ⟨m, stop⟩ := q
        rw [hw] at h
        cases stop with
        | true =>
          cases h
          exact hq
        | false => exact walkEntries_nodup dmp _ _ _ m patches hq h

/-! ## A save, once its patch file is found -/

theorem wholeTextDmp_lawful : Lawful wholeTextDmp :=
  ⟨fun _ _ => by simp [wholeTextDmp, diffText2], fun _ _ => by simp [wholeTextDmp, diffText2]⟩

theorem mapPut_of_not_mem (m : PatchMap) (k : Int) (v : List Patch) (h : k ∉ mapKeys m) :
    mapPut m k v = m ++ [(k, v)] := by
  induction m with
  | nil => rfl
  | cons e rest ih =>
    obtain ⟨k2, v2⟩ := e
    simp only [mapKeys, List.map_cons, List.mem_cons, not_or] at h
    have h2 : ¬ k2 = k := fun h3 => h.1 h3.symm
    simp only [mapPut, h2, if_false, List.cons_append]
    rw [ih h.2]

theorem orderedInsert_append_max (e x : Int × List Patch) (l : List (Int × List Patch))
    (h : e.1 ≤ x.1) :
    (l ++ [x]).orderedInsert (fun a b => a.1 ≤ b.1) e =
      l.orderedInsert (fun a b => a.1 ≤ b.1) e ++ [x] := by
  induction l with
  | nil => simp [List.orderedInsert, h]
  | cons b l ih =>
    by_cases hb : e.1 ≤ b.1
    · simp [List.orderedInsert, hb]
    · simp [List.orderedInsert, hb, ih]

theorem insertionSort_append_max (x : Int × List Patch) (l : List (Int × List Patch))
    (h : ∀ e ∈ l, e.1 ≤ x.1) :
    (l ++ [x]).insertionSort (fun a b => a.1 ≤ b.1) =
      l.insertionSort (fun a b => a.1 ≤ b.1) ++ [x] := by
  induction l with
  | nil => rfl
  | cons b l ih =>
    rw [List.cons_append, List.insertionSort, ih (fun e he => h e (List.mem_cons_of_mem _ he)),
      orderedInsert_append_max b x _ (h b (List.mem_cons_self _ _))]
    rfl

/-- The save guarantee once the new patch file is found: when the mapping after
the save is the mapping before it with the new patch under a key above all
others, and the history before the save was empty or replayed to the canonical
content, the new version is the new content and its index is the number of
earlier versions. -/
theorem versionOf_after_save (dmp : DiffMatchPatch) (hL : Lawful dmp) (patches : PatchMap)
    (rawContent newContent : Str) (timestamp : Int) (hnd : (mapKeys patches).Nodup)
    (hts : ∀ k ∈ mapKeys patches, k < timestamp)
    (hinv : patches = [] ∨ replayAll dmp patches = rawContent) :
    versionOf dmp
        (mapPut patches timestamp
          (dmp.PatchMake
            (if patches.length = 0 then dmp.DiffMain [] newContent false
              else dmp.DiffMain rawContent newContent false)))
        timestamp =
      (newContent, ((mapKeys patches).length : Int), none) := by
  have hnot : timestamp ∉ mapKeys patches := fun h => lt_irrefl _ (hts _ h)
  rw [mapPut_of_not_mem _ _ _ hnot]
  have hk : timestamp ∈ mapKeys (patches ++ [(timestamp, dmp.PatchMake
      (if patches.length = 0 then dmp.DiffMain [] newContent false
        else dmp.DiffMain rawContent newContent false))]) := by
    simp [mapKeys]
  have hnd2 : (mapKeys (patches ++ [(timestamp, dmp.PatchMake
      (if patches.length = 0 then dmp.DiffMain [] newContent false
        else dmp.DiffMain rawContent newContent false))])).Nodup := by
    simp only [mapKeys, List.map_append, List.map_cons, List.map_nil]
    exact List.Nodup.append hnd (List.nodup_singleton _) (by simpa [mapKeys] using hnot)
  rw [versionOf_of_mem dmp _ timestamp hnd2 hk]
  have hle : ∀ e ∈ patches, e.1 ≤ timestamp := fun e he =>
    le_of_lt (hts e.1 (List.mem_map_of_mem Prod.fst he))
  have hrank : specRank (patches ++ [(timestamp, dmp.PatchMake
      (if patches.length = 0 then dmp.DiffMain [] newContent false
        else dmp.DiffMain rawContent newContent false))]) timestamp = (mapKeys patches).length := by
    unfold specRank
    simp only [mapKeys, List.map_append, List.map_cons, List.map_nil, List.filter_append]
    have h1 : (List.map Prod.fst patches).filter (fun k => decide (k < timestamp)) =
        List.map Prod.fst patches := by
      rw [List.filter_eq_self]
      intro k hk2
      simpa using hts k hk2
    simp [h1]
  have hcontent : specReconstruct dmp (patches ++ [(timestamp, dmp.PatchMake
      (if patches.length = 0 then dmp.DiffMain [] newContent false
        else dmp.DiffMain rawContent newContent false))]) timestamp = newContent := by
    unfold specReconstruct
    rw [insertionSort_append_max _ _ hle, List.filter_append]
    have h1 : (patches.insertionSort (fun a b => a.1 ≤ b.1)).filter
        (fun e => decide (e.1 ≤ timestamp)) = patches.insertionSort (fun a b => a.1 ≤ b.1) := by
      rw [List.filter_eq_self]
      intro e he
      simpa using hle e ((List.mem_insertionSort _).1 he)
    rw [h1]
    simp only [le_refl, decide_True, List.filter_cons_of_pos, List.filter_nil, List.foldl_append,
      List.foldl_cons, List.foldl_nil, replayStep]
    rcases hinv with h0 | h0
    · subst h0
      simpa using hL.apply [] newContent
    · have hne : ¬ patches.length = 0 ∨ patches.length = 0 := by tauto
      by_cases hlen : patches.length = 0
      · have : patches = [] := List.length_eq_zero.1 hlen
        subst this
        simpa using hL.apply [] newContent
      · rw [if_neg hlen]
        have : List.foldl (replayStep dmp) [] (patches.insertionSort (fun a b => a.1 ≤ b.1)) =
            rawContent := h0
        rw [this]
        exact hL.apply rawContent newContent
  rw [hcontent, hrank]

/-- The page `foo` is new and the directory holds a patch file of the document
`foo_bar`: after one save of `foo` under the identifier 5 the mapping of `foo`
has two entries and the new version has the index 1. -/
theorem save_next_to_foreign_entry (dmp : DiffMatchPatch) (U : Char → Char) (c : Str)
    (p q : List Patch) (hp : dmp.PatchFromText c = some p)
    (hq : dmp.PatchFromText
      (dmp.PatchToText (dmp.PatchMake (dmp.DiffMain [] "x".toList false))) = some q) :
    ∃ w,
      Update dmp U fooPage ⟨none, some [("foo_bar_3.md".toList, c)]⟩ "x".toList 5 = .ok w ∧
      GetPatches dmp U fooPage w = .ok [(5, q), (3, p)] ∧
      GetVersion dmp U fooPage w 5 =
        .ok (dmp.PatchApply q (dmp.PatchApply p []), 1, none) := by
  have e : GetPatches dmp U fooPage
      ⟨some "x".toList, some [("foo_bar_3.md".toList, c), ("foo_5.md".toList,
        dmp.PatchToText (dmp.PatchMake (dmp.DiffMain [] "x".toList false)))]⟩ =
      walkEntries dmp "/w/versions/foo_*.md".toList "/w/versions".toList
        [("foo_5.md".toList,
          dmp.PatchToText (dmp.PatchMake (dmp.DiffMain [] "x".toList false))),
         ("foo_bar_3.md".toList, c)] [] := rfl
  have r1 := walkFn_of_match dmp "/w/versions/foo_*.md".toList []
    (Join "/w/versions".toList "foo_5.md".toList) _ "5".toList q rfl rfl hq
  have r2 := walkFn_of_match dmp "/w/versions/foo_*.md".toList [(5, q)]
    (Join "/w/versions".toList "foo_bar_3.md".toList) c "3".toList p rfl rfl hp
  have g : GetPatches dmp U fooPage
      ⟨some "x".toList, some [("foo_bar_3.md".toList, c), ("foo_5.md".toList,
        dmp.PatchToText (dmp.PatchMake (dmp.DiffMain [] "x".toList false)))]⟩ =
      .ok [(5, q), (3, p)] := by
    rw [e, walkEntries, r1]
    simp only
    rw [walkEntries, show mapPut [] (Atoi "5".toList).1 q = [(5, q)] from rfl, r2]
    rfl
  have hv : versionOf dmp [(5, q), (3, p)] 5 =
      (dmp.PatchApply q (dmp.PatchApply p []), 1, none) := by
    simp [versionOf, mapGet, sortInts, mapKeys, findLoop, applyLoop]
  refine ⟨⟨some "x".toList, some [("foo_bar_3.md".toList, c), ("foo_5.md".toList,
    dmp.PatchToText (dmp.PatchMake (dmp.DiffMain [] "x".toList false)))]⟩, rfl, g, ?_⟩
  simp only [GetVersion, g, hv]

/-! ## Paths: what `filepath.Clean` keeps -/

theorem splitSlash_ne_nil (s : Str) : splitSlash s ≠ [] := by
  cases s with
  | nil => simp [splitSlash]
  | cons c t =>
    unfold splitSlash
    by_cases hc : c = '/'
    · simp [hc]
    · rw [if_neg hc]
      cases splitSlash t <;> simp

theorem splitSlash_no_slash (s : Str) : ∀ e ∈ splitSlash s, '/' ∉ e := by
  induction s with
  | nil => simp [splitSlash]
  | cons c t ih =>
    unfold splitSlash
    by_cases hc : c = '/'
    · rw [if_pos hc]
      intro e he
      rcases List.mem_cons.1 he with h | h
      · rw [h]; simp
      · exact ih e h
    · rw [if_neg hc]
      cases hsp : splitSlash t with
      | nil => exact absurd hsp (splitSlash_ne_nil t)
      | cons h r =>
        rw [hsp] at ih
        intro e he
        rcases List.mem_cons.1 he with h1 | h1
        · rw [h1]
          intro hm
          rcases List.mem_cons.1 hm with h2 | h2
          · exact hc h2.symm
          · exact ih h (List.mem_cons_self _ _) h2
        · exact ih e (List.mem_cons_of_mem _ h1)

/-- Every slug that `Serve` passes is free of separators. -/
theorem UrlParts_no_slash (url : Str) : ∀ slug ∈ UrlParts url, '/' ∉ slug := fun slug h =>
  splitSlash_no_slash url slug (List.mem_of_mem_tail h)

theorem splitSlash_of_no_slash (e : Str) (h : '/' ∉ e) : splitSlash e = [e] := by
  induction e with
  | nil => rfl
  | cons c t ih =>
    have hc : c ≠ '/' := fun hc => h (by rw [hc]; exact List.mem_cons_self _ _)
    have ht : '/' ∉ t := fun hm => h (List.mem_cons_of_mem _ hm)
    unfold splitSlash
    rw [if_neg hc, ih ht]

theorem splitSlash_append (a b : Str) :
    splitSlash (a ++ '/' :: b) = splitSlash a ++ splitSlash b := by
  induction a with
  | nil => simp [splitSlash]
  | cons c t ih =>
    by_cases hc : c = '/'
    · simp [splitSlash, hc, ih]
    · have e1 : splitSlash (c :: t ++ '/' :: b) =
          (match splitSlash (t ++ '/' :: b) with
            | [] => [[c]]
            | h :: r => (c :: h) :: r) := by
        simp [splitSlash, hc]
      have e2 : splitSlash (c :: t) =
          (match splitSlash t with
            | [] => [[c]]
            | h :: r => (c :: h) :: r) := by
        simp [splitSlash, hc]
      rw [e1, e2, ih]
      cases hsp : splitSlash t with
      | nil => exact absurd hsp (splitSlash_ne_nil t)
      | cons h r => rfl

theorem splitSlash_joinSlash (es : List Str) (hne : es ≠ []) (h : ∀ e ∈ es, '/' ∉ e) :
    splitSlash (joinSlash es) = es := by
  induction es with
  | nil => exact absurd rfl hne
  | cons e rest ih =>
    cases rest with
    | nil => simpa [joinSlash] using splitSlash_of_no_slash e (h e (List.mem_cons_self _ _))
    | cons e2 rest2 =>
      have hj : joinSlash (e :: e2 :: rest2) = e ++ '/' :: joinSlash (e2 :: rest2) := rfl
      rw [hj, splitSlash_append, splitSlash_of_no_slash e (h e (List.mem_cons_self _ _)),
        ih (by simp) (fun x hx => h x (List.mem_cons_of_mem _ hx))]
      rfl

theorem GoodStack_nil (rooted : Bool) : GoodStack rooted [] :=
  ⟨fun _ h => (by cases h), List.Pairwise.nil, fun _ h => (by cases h)⟩

theorem GoodStack_tail (rooted : Bool) (top : Str) (rest : List Str)
    (h : GoodStack rooted (top :: rest)) : GoodStack rooted rest :=
  ⟨fun e he => h.plain e (List.mem_cons_of_mem _ he), (List.pairwise_cons.1 h.dots).2,
    fun hr hm => h.root hr (List.mem_cons_of_mem _ hm)⟩

theorem cleanStep_good (rooted : Bool) (st : List Str) (elem : Str) (hst : GoodStack rooted st)
    (he : '/' ∉ elem) : GoodStack rooted (cleanStep rooted st elem) := by
  unfold cleanStep
  by_cases h1 : elem = [] ∨ elem = ['.']
  · rw [if_pos h1]
    exact hst
  · rw [if_neg h1]
    have hne : elem ≠ [] := fun h => h1 (Or.inl h)
    have hnd : elem ≠ ['.'] := fun h => h1 (Or.inr h)
    by_cases h2 : elem = ['.', '.']
    · rw [if_pos h2]
      cases st with
      | nil =>
        cases rooted with
        | true => exact GoodStack_nil true
        | false =>
          refine ⟨?_, List.pairwise_singleton _ _, fun hr => (by cases hr)⟩
          intro e hm
          rw [List.mem_singleton.1 hm]
          exact ⟨hne, hnd, he⟩
      | cons top rest =>
        by_cases h3 : top = ['.', '.']
        · subst h3
          simp only [if_true]
          have hroot : rooted = false := by
            cases rooted with
            | false => rfl
            | true => exact absurd (List.mem_cons_self _ _) (hst.root rfl)
          refine ⟨?_, ?_, fun hr => (by rw [hroot] at hr; cases hr)⟩
          · intro e hm
            rcases List.mem_cons.1 hm with h | h
            · rw [h]; exact ⟨hne, hnd, he⟩
            · exact hst.plain e h
          · refine List.pairwise_cons.2 ⟨?_, hst.dots⟩
            intro b hb _
            rcases List.mem_cons.1 hb with h | h
            · exact h
            · exact (List.pairwise_cons.1 hst.dots).1 b h rfl
        · simp only [h3, if_false]
          exact GoodStack_tail rooted top rest hst
    · rw [if_neg h2]
      refine ⟨?_, ?_, ?_⟩
      · intro e hm
        rcases List.mem_cons.1 hm with h | h
        · rw [h]; exact ⟨hne, hnd, he⟩
        · exact hst.plain e h
      · exact List.pairwise_cons.2 ⟨fun b _ hb => absurd hb h2, hst.dots⟩
      · intro hr hm
        rcases List.mem_cons.1 hm with h | h
        · exact h2 h.symm
        · exact hst.root hr h

theorem foldl_cleanStep_good (rooted : Bool) (elems : List Str) (st : List Str)
    (hst : GoodStack rooted st) (he : ∀ e ∈ elems, '/' ∉ e) :
    GoodStack rooted (elems.foldl (cleanStep rooted) st) := by
  induction elems generalizing st with
  | nil => exact hst
  | cons e rest ih =>
    rw [List.foldl_cons]
    exact ih _ (cleanStep_good rooted st e hst (he e (List.mem_cons_self _ _)))
      (fun x hx => he x (List.mem_cons_of_mem _ hx))

theorem cleanStep_push (rooted : Bool) (st : List Str) (elem : Str) (h1 : elem ≠ [])
    (h2 : elem ≠ ['.']) (h3 : elem ≠ ['.', '.']) : cleanStep rooted st elem = elem :: st := by
  unfold cleanStep
  rw [if_neg (by rintro (h | h); exact h1 h; exact h2 h), if_neg h3]

theorem foldl_cleanStep_reverse (rooted : Bool) (st : List Str) (hst : GoodStack rooted st) :
    st.reverse.foldl (cleanStep rooted) [] = st := by
  induction st with
  | nil => rfl
  | cons top rest ih =>
    rw [List.reverse_cons, List.foldl_append, ih (GoodStack_tail rooted top rest hst)]
    simp only [List.foldl_cons, List.foldl_nil]
    obtain ⟨hne, hnd, _⟩ := hst.plain top (List.mem_cons_self _ _)
    by_cases h2 : top = ['.', '.']
    · have hroot : rooted = false := by
        cases rooted with
        | false => rfl
        | true => exact absurd (by rw [h2]; exact List.mem_cons_self _ _) (hst.root rfl)
      unfold cleanStep
      rw [if_neg (by rintro (h | h); exact hne h; exact hnd h), if_pos h2]
      cases rest with
      | nil => rw [hroot, h2]; rfl
      | cons t2 r2 =>
        have ht2 : t2 = ['.', '.'] :=
          (List.pairwise_cons.1 hst.dots).1 t2 (List.mem_cons_self _ _) h2
        simp only [ht2, if_true, h2]
    · exact cleanStep_push rooted rest top hne hnd h2

theorem HasPrefix_slash_cons (c : Char) (s : Str) :
    HasPrefix (c :: s) ['/'] = decide (c = '/') := by
  by_cases h : c = '/'
  · simp [HasPrefix, List.isPrefixOf, h]
  · have h2 : ¬ '/' = c := fun e => h e.symm
    simp [HasPrefix, List.isPrefixOf, h, h2]

theorem joinSlash_head (e : Str) (rest : List Str) (c : Char) (t : Str) (he : e = c :: t) :
    ∃ u, joinSlash (e :: rest) = c :: u := by
  subst he
  cases rest with
  | nil => exact ⟨t, rfl⟩
  | cons e2 r2 => exact ⟨t ++ '/' :: joinSlash (e2 :: r2), rfl⟩

theorem cleanElements_render (rooted : Bool) (st : List Str) (hst : GoodStack rooted st) :
    cleanElements
        (if rooted = true then '/' :: joinSlash st.reverse
          else if joinSlash st.reverse = [] then ['.'] else joinSlash st.reverse) =
      (rooted, st.reverse) := by
  have hno : ∀ e ∈ st.reverse, '/' ∉ e := fun e he =>
    (hst.plain e (List.mem_reverse.1 he)).2.2
  cases hrev : st.reverse with
  | nil =>
    have hnil : st = [] := List.reverse_eq_nil_iff.1 hrev
    subst hnil
    cases rooted <;> rfl
  | cons e rest =>
    have hne : st.reverse ≠ [] := by rw [hrev]; simp
    have hsplit := splitSlash_joinSlash st.reverse hne hno
    have hfold := foldl_cleanStep_reverse rooted st hst
    have he : e ∈ st := List.mem_reverse.1 (by rw [hrev]; exact List.mem_cons_self _ _)
    obtain ⟨hene, _, heslash⟩ := hst.plain e he
    obtain ⟨c, u, hcu⟩ := List.exists_cons_of_ne_nil hene
    obtain ⟨v, hv⟩ := joinSlash_head e rest c u hcu
    have hc : c ≠ '/' := fun h => heslash (by rw [hcu, h]; exact List.mem_cons_self _ _)
    rw [hrev] at hsplit hfold
    cases rooted with
    | true =>
      simp only [if_true]
      unfold cleanElements
      have h1 : HasPrefix ('/' :: joinSlash (e :: rest)) ['/'] = true := by
        rw [HasPrefix_slash_cons]; simp
      have h2 : splitSlash ('/' :: joinSlash (e :: rest)) =
          [] :: splitSlash (joinSlash (e :: rest)) := by
        simp [splitSlash]
      rw [h1, h2, hsplit, List.foldl_cons]
      have h3 : cleanStep true [] [] = [] := rfl
      rw [h3, hfold, hrev]
    | false =>
      have hb : joinSlash (e :: rest) ≠ [] := by rw [hv]; simp
      simp only [Bool.false_eq_true, if_false, if_neg hb]
      unfold cleanElements
      have h1 : HasPrefix (joinSlash (e :: rest)) ['/'] = false := by
        rw [hv, HasPrefix_slash_cons]; simp [hc]
      rw [h1, hsplit, hfold, hrev]

theorem stack_good (path : Str) :
    GoodStack (HasPrefix path ['/'])
      ((splitSlash path).foldl (cleanStep (HasPrefix path ['/'])) []) :=
  foldl_cleanStep_good _ _ [] (GoodStack_nil _) (splitSlash_no_slash path)

/-- Cleaning a path keeps its elements. -/
theorem cleanElements_Clean (path : Str) : cleanElements (Clean path) = cleanElements path := by
  by_cases hx : path = []
  · subst hx
    rfl
  · generalize hst : (splitSlash path).foldl (cleanStep (HasPrefix path ['/'])) [] = st
    have e : Clean path =
        (if HasPrefix path ['/'] = true then '/' :: joinSlash st.reverse
          else if joinSlash st.reverse = [] then ['.'] else joinSlash st.reverse) := by
      unfold Clean
      rw [if_neg hx, ← hst]
    have hgood : GoodStack (HasPrefix path ['/']) st := hst ▸ stack_good path
    rw [e, cleanElements_render _ _ hgood]
    unfold cleanElements
    rw [hst]

/-- Joining a directory and one ordinary element adds the element to the
elements of the directory. -/
theorem cleanElements_Join (dir file : Str) (h1 : file ≠ []) (h2 : file ≠ ['.'])
    (h3 : file ≠ ['.', '.']) (h4 : '/' ∉ file) :
    cleanElements (Join dir file) = ((cleanElements dir).1, (cleanElements dir).2 ++ [file]) := by
  obtain ⟨c, u, hcu⟩ := List.exists_cons_of_ne_nil h1
  have hc : c ≠ '/' := fun h => h4 (by rw [hcu, h]; exact List.mem_cons_self _ _)
  cases dir with
  | nil =>
    have e : Join [] file = Clean file := by
      unfold Join
      simp [h1]
    rw [e, cleanElements_Clean]
    unfold cleanElements
    rw [splitSlash_of_no_slash file h4]
    have hp : HasPrefix file ['/'] = false := by
      rw [hcu, HasPrefix_slash_cons]; simp [hc]
    rw [hp]
    simp only [List.foldl_cons, List.foldl_nil]
    rw [cleanStep_push false [] file h1 h2 h3]
    rfl
  | cons d ds =>
    have e : Join (d :: ds) file = Clean (d :: ds ++ '/' :: file) := by
      unfold Join
      simp
    rw [e, cleanElements_Clean]
    unfold cleanElements
    have hp : HasPrefix (d :: ds ++ '/' :: file) ['/'] = HasPrefix (d :: ds) ['/'] := by
      rw [List.cons_append, HasPrefix_slash_cons, HasPrefix_slash_cons]
    rw [hp, splitSlash_append, splitSlash_of_no_slash file h4, List.foldl_append]
    simp only [List.foldl_cons, List.foldl_nil]
    rw [cleanStep_push _ _ file h1 h2 h3, List.reverse_cons]

/-! ## Slugs without a separator -/

theorem lowerHyphen_eq_slash (U : Char → Char) (hU : CaseTableOK U) (c : Char)
    (h : lowerHyphen U c = '/') : c = '/' := by
  by_cases hc : c ∈ titleCutset
  · have hlow : toLowerRune U c = c := by
      have h127 : c.toNat ≤ 127 := by
        simp only [titleCutset, List.mem_cons, List.mem_singleton, List.not_mem_nil,
          or_false] at hc
        rcases hc with h1 | h1 | h1 | h1 | h1 | h1 <;> (rw [h1]; decide)
      have hup : ¬ isUpperAscii c := by
        simp only [titleCutset, List.mem_cons, List.mem_singleton, List.not_mem_nil,
          or_false] at hc
        rcases hc with h1 | h1 | h1 | h1 | h1 | h1 <;> (rw [h1]; decide)
      unfold toLowerRune
      rw [if_pos h127]
      exact if_neg hup
    unfold lowerHyphen at h
    rw [hlow] at h
    by_cases hsp : c = ' '
    · rw [if_pos hsp] at h
      exact absurd h (by decide)
    · rw [if_neg hsp] at h
      exact h
  · have := (lowerHyphen_props U hU c).2.2 hc
    rw [h] at this
    exact absurd (by decide) this

theorem Trim_subset (s cutset : Str) : ∀ c ∈ Trim s cutset, c ∈ s := by
  intro c hc
  unfold Trim TrimRight TrimLeft at hc
  exact (List.dropWhile_suffix _).subset ((List.rdropWhile_prefix _ _).subset hc)

theorem NormaliseTitle_no_slash (U : Char → Char) (hU : CaseTableOK U) (slug : Str)
    (hs : '/' ∉ slug) : '/' ∉ NormaliseTitle U slug := by
  rw [NormaliseTitle_eq_map]
  intro hm
  obtain ⟨c, hc, hcs⟩ := List.mem_map.1 hm
  have hslash : c = '/' := lowerHyphen_eq_slash U hU c hcs
  have hmem := Trim_subset _ _ c hc
  rw [hslash] at hmem
  by_cases hi : slug = ['/'] ∨ slug = []
  · rw [if_pos hi] at hmem
    exact absurd hmem (by decide)
  · rw [if_neg hi] at hmem
    exact hs hmem

theorem TitleToFilename_ordinary (title : Str) (h : '/' ∉ title) :
    TitleToFilename title ≠ [] ∧ TitleToFilename title ≠ ['.'] ∧
      TitleToFilename title ≠ ['.', '.'] ∧ TitleToFilename title ≠ ".git".toList ∧
      '/' ∉ TitleToFilename title := by
  have hlast : (TitleToFilename title).getLast? = some 'd' := by
    unfold TitleToFilename
    simp
  refine ⟨?_, ?_, ?_, ?_, ?_⟩
  · intro e; rw [e] at hlast; cases hlast
  · intro e; rw [e] at hlast; exact absurd hlast (by decide)
  · intro e; rw [e] at hlast; exact absurd hlast (by decide)
  · intro e; rw [e] at hlast; exact absurd hlast (by decide)
  · unfold TitleToFilename
    intro hm
    rcases List.mem_append.1 hm with h1 | h1
    · exact h h1
    · exact absurd h1 (by decide)

theorem insideDir_Join (dir file : Str) (h1 : file ≠ []) (h2 : file ≠ ['.'])
    (h3 : file ≠ ['.', '.']) (h4 : '/' ∉ file) (h5 : file ≠ ".git".toList) :
    insideDir dir (Join dir file) = true ∧
      insideDir (Join dir ".git".toList) (Join dir file) = false := by
  have e1 := cleanElements_Join dir file h1 h2 h3 h4
  have e2 := cleanElements_Join dir ".git".toList (by decide) (by decide) (by decide) (by decide)
  refine ⟨?_, ?_⟩
  · unfold insideDir
    rw [e1]
    simp [h3, Ne.symm h3]
  · unfold insideDir
    rw [e1, e2]
    have hpre : ((cleanElements dir).2 ++ [".git".toList]).isPrefixOf
        ((cleanElements dir).2 ++ [file]) = false := by
      rw [Bool.eq_false_iff]
      intro h
      have hp := List.isPrefixOf_iff_prefix.1 h
      have heq := List.append_cancel_left (hp.eq_of_length (by simp))
      exact h5 (by simpa using heq.symm)
    rw [hpre]
    simp

/-! ## The error of `GetVersion`, when `GetPatches` returns -/

/-- Whenever `GetPatches` returns a mapping, `GetVersion` returns, and its
error is non-nil exactly when the timestamp is not a key of that mapping; with
the error come the empty string and the index -1, and success has a nil
error. In particular, an empty mapping gives the error for every timestamp. -/
theorem getVersion_error_iff_not_key (dmp : DiffMatchPatch) (U : Char → Char) (page : Page)
    (w : World) (timestamp : Int) (patches : PatchMap)
    (h : GetPatches dmp U page w = .ok patches) :
    ∃ content index err, GetVersion dmp U page w timestamp = .ok (content, index, err) ∧
      (err ≠ none ↔ timestamp ∉ mapKeys patches) ∧
      (err ≠ none → content = [] ∧ index = -1) ∧
      (patches = [] → err ≠ none) := by
  simp only [GetVersion, h]
  cases hg : mapGet patches timestamp with
  | none =>
    refine ⟨[], -1, some noVersionError, by simp [versionOf, hg], ?_, ?_, ?_⟩
    · simpa using (mapGet_eq_none_iff patches timestamp).1 hg
    · intro _; exact ⟨rfl, rfl⟩
    · intro _; simp
  | some v =>
    have hk : timestamp ∈ mapKeys patches :=
      (mapGet_isSome_iff patches timestamp).1 (by rw [hg]; rfl)
    refine ⟨(versionOf dmp patches timestamp).1, (versionOf dmp patches timestamp).2.1, none,
      by simp only [versionOf, hg], ?_, ?_, ?_⟩
    · simpa using hk
    · intro h0; exact absurd rfl h0
    · intro h0
      rw [h0] at hk
      cases hk

/-- An instance: the page `foo` with one patch file, asked for a version that
was never saved. -/
theorem getVersion_error_iff_not_key_witness :
    GetPatches wholeTextDmp id fooPage fooWorld = .ok fooPatches ∧
      ∃ content index err, GetVersion wholeTextDmp id fooPage fooWorld 6 =
          .ok (content, index, err) ∧
        (err ≠ none ↔ (6 : Int) ∉ mapKeys fooPatches) ∧
        (err ≠ none → content = [] ∧ index = -1) ∧
        (fooPatches = [] → err ≠ none) :=
  ⟨by decide,
    getVersion_error_iff_not_key wholeTextDmp id fooPage fooWorld 6 fooPatches (by decide)⟩

/-! ## The claims -/

/-- C1, the code at the failing input. A new document whose title is `a[b` is
saved once with the content `x` under the version identifier 5: `Update`
succeeds and writes the patch file `a[b_5.md`, but the pattern that `GetPatches`
builds from the unescaped title is malformed, the walk stops at its first call,
the mapping stays empty and `GetVersion` of the new identifier returns the
error instead of the new content. This holds whatever the diff package and the
case table are. -/
theorem update_bracket_title_version_lost (dmp : DiffMatchPatch) (U : Char → Char) :
    GetPatches dmp U bracketPage newWorld = .ok [] ∧
      ∃ w, Update dmp U bracketPage newWorld "x".toList 5 = .ok w ∧
        w.versions = some [("a[b_5.md".toList,
          dmp.PatchToText (dmp.PatchMake (dmp.DiffMain [] "x".toList false)))] ∧
        GetPatches dmp U bracketPage w = .ok [] ∧
        GetVersion dmp U bracketPage w 5 = .ok ([], -1, some noVersionError) :=
  ⟨rfl, _, rfl, rfl, rfl, rfl⟩

/-- C2, the code at the failing input. The contents `x` and `xy` are saved on a
new document whose title is `a[b` under the identifiers 5 and 7: both saves
succeed, and `GetVersion` returns the error for both identifiers instead of
`x` with index 0 and `xy` with index 1. -/
theorem saves_bracket_title_versions_lost (dmp : DiffMatchPatch) (U : Char → Char) :
    ∃ w, saveAll dmp U bracketPage newWorld [("x".toList, 5), ("xy".toList, 7)] = .ok w ∧
      GetVersion dmp U bracketPage w 5 = .ok ([], -1, some noVersionError) ∧
      GetVersion dmp U bracketPage w 7 = .ok ([], -1, some noVersionError) :=
  ⟨_, rfl, rfl, rfl⟩

/-- C3. For every patch mapping and every target that is a key of it, the
content that `GetVersion` returns is the replay of the specification: from the
empty string, the patches of the keys less than or equal to the target, and of
no other key, applied in ascending order of the keys. The first part is the
body of `GetVersion` on any association list whose keys are distinct, as the
keys of a Go map are; the second part is `GetVersion` itself, in every state in
which `GetPatches` returns the mapping. -/
theorem getVersion_content_eq_replay (dmp : DiffMatchPatch) (patches : PatchMap)
    (timestamp : Int) (hk : timestamp ∈ mapKeys patches) :
    ((mapKeys patches).Nodup →
        (versionOf dmp patches timestamp).1 = specReconstruct dmp patches timestamp) ∧
      ∀ U page w, GetPatches dmp U page w = .ok patches →
        ∃ index, GetVersion dmp U page w timestamp =
          .ok (specReconstruct dmp patches timestamp, index, none) := by
  refine ⟨fun hnd => by rw [versionOf_of_mem dmp patches timestamp hnd hk], ?_⟩
  intro U page w hp
  refine ⟨(specRank patches timestamp : Int), ?_⟩
  simp only [GetVersion, hp]
  rw [versionOf_of_mem dmp patches timestamp (GetPatches_nodup dmp U page w patches hp) hk]

/-- Witness of C3: the page `foo` with one patch file, version 5. -/
theorem getVersion_content_eq_replay_witness :
    (5 : Int) ∈ mapKeys fooPatches ∧
      ∃ index, GetVersion wholeTextDmp id fooPage fooWorld 5 =
        .ok (specReconstruct wholeTextDmp fooPatches 5, index, none) :=
  ⟨by decide,
    (getVersion_content_eq_replay wholeTextDmp fooPatches 5 (by decide)).2 id fooPage fooWorld
      (by decide)⟩

/-- C4, the code at the failing input. A page has canonical content and nothing
exists at the path `versions`, so no patch was ever recorded: for every
timestamp `GetVersion` panics in the `check` that `GetPatches` runs after
`os.Stat(versionsDir)`; it does not return the empty string, the index -1 and
an error. For a new document, whose canonical content does not exist, it does
return them. -/
theorem getVersion_seeded_page_panics (dmp : DiffMatchPatch) (U : Char → Char) (page : Page)
    (content : Str) (timestamp : Int) :
    GetVersion dmp U page ⟨some content, none⟩ timestamp = .error Fault.statVersionsDir ∧
      ∀ versions, GetVersion dmp U page ⟨none, versions⟩ timestamp =
        .ok ([], -1, some noVersionError) :=
  ⟨rfl, fun _ => rfl⟩

/-- C5. For every patch mapping and every target that is a key of it, the index
that `GetVersion` returns is the position of the target in the sorted keys,
which is the number of keys strictly smaller than the target; it lies between
0 and the number of keys minus one. The first part is the body of `GetVersion`
on any association list whose keys are distinct, as the keys of a Go map are;
the second part is `GetVersion` itself, in every state in which `GetPatches`
returns the mapping. -/
theorem getVersion_index_eq_rank (dmp : DiffMatchPatch) (patches : PatchMap)
    (timestamp : Int) (hk : timestamp ∈ mapKeys patches) :
    ((mapKeys patches).Nodup →
        (versionOf dmp patches timestamp).2.1 = (specRank patches timestamp : Int) ∧
        (sortInts (mapKeys patches)).indexOf timestamp = specRank patches timestamp ∧
        0 ≤ (versionOf dmp patches timestamp).2.1 ∧
        (versionOf dmp patches timestamp).2.1 ≤ ((mapKeys patches).length : Int) - 1) ∧
      ∀ U page w, GetPatches dmp U page w = .ok patches →
        ∃ content, GetVersion dmp U page w timestamp =
            .ok (content, (specRank patches timestamp : Int), none) ∧
          (sortInts (mapKeys patches)).indexOf timestamp = specRank patches timestamp ∧
          specRank patches timestamp ≤ (mapKeys patches).length - 1 := by
  have hmem : timestamp ∈ sortInts (mapKeys patches) := (mem_sortInts _ _).2 hk
  have hperm : ((sortInts (mapKeys patches)).filter (fun k => decide (k < timestamp))).length =
      specRank patches timestamp :=
    ((List.perm_insertionSort _ (mapKeys patches)).filter _).length_eq
  have key : (mapKeys patches).Nodup →
      (sortInts (mapKeys patches)).indexOf timestamp = specRank patches timestamp ∧
        specRank patches timestamp < (mapKeys patches).length := by
    intro hnd
    have hidx := (take_indexOf_of_sorted _ (sortInts_sorted_lt _ hnd) timestamp hmem).2
    refine ⟨by rw [hidx, hperm], ?_⟩
    rw [← hperm, ← hidx]
    have := List.indexOf_lt_length.2 hmem
    simpa [sortInts] using this
  refine ⟨?_, ?_⟩
  · intro hnd
    obtain ⟨h1, h2⟩ := key hnd
    rw [versionOf_of_mem dmp patches timestamp hnd hk]
    refine ⟨rfl, h1, by simp, by simp only; omega⟩
  · intro U page w hp
    have hnd := GetPatches_nodup dmp U page w patches hp
    obtain ⟨h1, h2⟩ := key hnd
    refine ⟨specReconstruct dmp patches timestamp, ?_, h1, by omega⟩
    simp only [GetVersion, hp]
    rw [versionOf_of_mem dmp patches timestamp hnd hk]

/-- Witness of C5: the map with the keys 7 and 3, target 7, of rank 1. -/
theorem getVersion_index_eq_rank_witness :
    (7 : Int) ∈ mapKeys samplePatches ∧ (mapKeys samplePatches).Nodup ∧
      (versionOf wholeTextDmp samplePatches 7).2.1 = (specRank samplePatches 7 : Int) ∧
      specRank samplePatches 7 = 1 :=
  ⟨by decide, by decide,
    ((getVersion_index_eq_rank wholeTextDmp samplePatches 7 (by decide)).1 (by decide)).1,
    by decide⟩

/-- An instance: the page `foo` has canonical content and nothing exists at the
path `versions`; `GetPatches` panics on the error of `os.Stat(versionsDir)`
and does not return the empty mapping. -/
theorem getPatches_seeded_page_panics :
    GetPatches wholeTextDmp id fooPage seededWorld = .error Fault.statVersionsDir ∧
      GetPatches wholeTextDmp id fooPage seededWorld ≠ .ok [] := by
  decide

/-- C6, the code at the failing input. A page has canonical content and nothing
exists at the path `versions`: `GetPatches` panics in the `check` that follows
`os.Stat(versionsDir)`, where the claim has it return the empty mapping. The
sibling path of the same function does return the empty mapping without
failing: when the canonical content does not exist, whatever `versions` is. -/
theorem getPatches_without_versions_dir (dmp : DiffMatchPatch) (U : Char → Char) (page : Page) :
    (∀ versions, GetPatches dmp U page ⟨none, versions⟩ = .ok []) ∧
      (∀ content,
        GetPatches dmp U page ⟨some content, none⟩ = .error Fault.statVersionsDir) :=
  ⟨fun _ => rfl, fun _ => rfl⟩

/-- C7, the code at the failing input. The page `foo` is listed while the
directory holds `foo_bar_123.md`, a patch file of the document `foo_bar`, and
`foo_x.md`, whose suffix is not a number. Both match the pattern `foo_*.md`:
the first contributes the key 123, the second the key 0 (the error of `Atoi`
is dropped), each with the decoded content of the file. -/
theorem getPatches_lists_foreign_entries (dmp : DiffMatchPatch) (U : Char → Char)
    (c1 c2 : Str) (p1 p2 : List Patch)
    (h1 : dmp.PatchFromText c1 = some p1) (h2 : dmp.PatchFromText c2 = some p2) :
    GetPatches dmp U fooPage (crowdedWorld c1 c2) = .ok [(123, p1), (0, p2)] := by
  have e : GetPatches dmp U fooPage (crowdedWorld c1 c2) =
      walkEntries dmp "/w/versions/foo_*.md".toList "/w/versions".toList
        [("foo_bar_123.md".toList, c1), ("foo_x.md".toList, c2)] [] := rfl
  have r1 := walkFn_of_match dmp "/w/versions/foo_*.md".toList []
    (Join "/w/versions".toList "foo_bar_123.md".toList) c1 "123".toList p1 rfl rfl h1
  have r2 := walkFn_of_match dmp "/w/versions/foo_*.md".toList [(123, p1)]
    (Join "/w/versions".toList "foo_x.md".toList) c2 [] p2 rfl rfl h2
  rw [e, walkEntries, r1]
  simp only
  rw [walkEntries, show mapPut [] (Atoi "123".toList).1 p1 = [(123, p1)] from rfl, r2]
  rfl

/-- Witness of C7, with the degenerate diff package. -/
theorem getPatches_lists_foreign_entries_witness :
    wholeTextDmp.PatchFromText "p".toList =
        some [⟨[⟨Operation.DiffInsert, "p".toList⟩], 0, 0, 0, 1⟩] ∧
      GetPatches wholeTextDmp id fooPage (crowdedWorld "p".toList "p".toList) =
      .ok [(123, [⟨[⟨Operation.DiffInsert, "p".toList⟩], 0, 0, 0, 1⟩]),
           (0, [⟨[⟨Operation.DiffInsert, "p".toList⟩], 0, 0, 0, 1⟩])] :=
  ⟨rfl, getPatches_lists_foreign_entries wholeTextDmp id _ _ _ _ rfl rfl⟩

/-- C8, counterexample. The server serves `/srv/wiki` and the slug is
`a/../../wiki-secret/x`: the function returns the path `/srv/wiki-secret/x.md`
and a nil error, and that path is not inside the served directory; the test by
`strings.HasPrefix` lets the sibling directory pass. The slug holds
separators, which no slug that `Serve` passes does. -/
theorem slugToAbsolutePath_leaves_served_dir :
    SlugToAbsolutePath id ⟨"/srv/wiki".toList⟩ "a/../../wiki-secret/x".toList =
        ("/srv/wiki-secret/x.md".toList, none) ∧
      insideDir "/srv/wiki".toList "/srv/wiki-secret/x.md".toList = false := by
  decide

/-- C8, amended. For every served directory path and every slug without a
separator, as are all the slugs that `Serve` takes from `UrlParts`: when
`SlugToAbsolutePath` returns a path without error, the path is the served
directory joined with the file name of the title, it lies inside the served
directory and it does not lie inside the directory `.git` of the served
directory. The case table of `unicode` is a parameter: what is used of it is
`CaseTableOK`. -/
theorem slugToAbsolutePath_inside_served_dir (U : Char → Char) (hU : CaseTableOK U)
    (server : Server) (slug path : Str) (hs : '/' ∉ slug)
    (h : SlugToAbsolutePath U server slug = (path, none)) :
    path = Join server.Path (TitleToFilename (NormaliseTitle U slug)) ∧
      insideDir server.Path path = true ∧
      insideDir (Join server.Path ".git".toList) path = false := by
  obtain ⟨f1, f2, f3, f4, f5⟩ :=
    TitleToFilename_ordinary (NormaliseTitle U slug) (NormaliseTitle_no_slash U hU slug hs)
  have hpath : path = Join server.Path (TitleToFilename (NormaliseTitle U slug)) := by
    unfold SlugToAbsolutePath at h
    simp only at h
    split at h
    · cases h
    · split at h
      · cases h
      · exact (congrArg Prod.fst h).symm
  rw [hpath]
  exact ⟨rfl, insideDir_Join server.Path _ f1 f2 f3 f5 f4⟩

/-- Witness of C8: the server serves `/srv/wiki`, the slug is `Hello World`. -/
theorem slugToAbsolutePath_inside_served_dir_witness :
    CaseTableOK id ∧ '/' ∉ "Hello World".toList ∧
      SlugToAbsolutePath id ⟨"/srv/wiki".toList⟩ "Hello World".toList =
        ("/srv/wiki/hello-world.md".toList, none) ∧
      insideDir "/srv/wiki".toList "/srv/wiki/hello-world.md".toList = true ∧
      insideDir (Join "/srv/wiki".toList ".git".toList) "/srv/wiki/hello-world.md".toList =
        false :=
  ⟨caseTableOK_id, by decide, by decide,
    (slugToAbsolutePath_inside_served_dir id caseTableOK_id ⟨"/srv/wiki".toList⟩
      "Hello World".toList "/srv/wiki/hello-world.md".toList (by decide) (by decide)).2⟩

/-- C9. For every raw title, `NormaliseTitle` returns the title trimmed, with
every code point lowercased and every space turned into a hyphen; the result
holds no space and no ASCII upper-case letter, it neither begins nor ends with
a character of the cutset (slash, dot, space, tab, newline, carriage return),
and the empty title and `/` both give `index`. The case table of `unicode` is
a parameter: what is used of it is `CaseTableOK`; when lowercasing is
idempotent, every code point of the result is its own lower-case form. The
result is a function of the title and of nothing else. -/
theorem normaliseTitle_lowercased_trimmed_hyphenated (U : Char → Char) (hU : CaseTableOK U)
    (title : Str) :
    NormaliseTitle U title =
        (Trim (if title = ['/'] ∨ title = [] then "index".toList else title) titleCutset).map
          (lowerHyphen U) ∧
      ' ' ∉ NormaliseTitle U title ∧
      (∀ c ∈ NormaliseTitle U title, ¬ isUpperAscii c) ∧
      (∀ c, (NormaliseTitle U title).head? = some c → c ∉ titleCutset) ∧
      (∀ c, (NormaliseTitle U title).getLast? = some c → c ∉ titleCutset) ∧
      ((∀ c, toLowerRune U (toLowerRune U c) = toLowerRune U c) →
        ∀ c ∈ NormaliseTitle U title, toLowerRune U c = c) ∧
      NormaliseTitle U [] = "index".toList ∧ NormaliseTitle U ['/'] = "index".toList := by
  refine ⟨NormaliseTitle_eq_map U title, ?_, ?_, ?_, ?_, ?_, by rfl, by rfl⟩
  · rw [NormaliseTitle_eq_map]
    intro h
    obtain ⟨c, _, hc⟩ := List.mem_map.1 h
    exact (lowerHyphen_props U hU c).1 hc
  · rw [NormaliseTitle_eq_map]
    intro c h
    obtain ⟨d, _, hd⟩ := List.mem_map.1 h
    rw [← hd]
    exact (lowerHyphen_props U hU d).2.1
  · rw [NormaliseTitle_eq_map]
    intro c h
    rw [List.head?_map] at h
    obtain ⟨d, hd, hdc⟩ := Option.map_eq_some'.1 h
    rw [← hdc]
    exact (lowerHyphen_props U hU d).2.2 (Trim_head_not_mem _ _ d hd)
  · rw [NormaliseTitle_eq_map]
    intro c h
    rw [List.getLast?_map] at h
    obtain ⟨d, hd, hdc⟩ := Option.map_eq_some'.1 h
    rw [← hdc]
    exact (lowerHyphen_props U hU d).2.2 (Trim_last_not_mem _ _ d hd)
  · rw [NormaliseTitle_eq_map]
    intro hidem c h
    obtain ⟨d, _, hd⟩ := List.mem_map.1 h
    rw [← hd]
    unfold lowerHyphen
    by_cases hs : toLowerRune U d = ' '
    · rw [if_pos hs]
      rfl
    · rw [if_neg hs]
      exact hidem d

/-- Witness of C9: the identity as case table, the title ` Hello World. `. -/
theorem normaliseTitle_lowercased_trimmed_hyphenated_witness :
    CaseTableOK id ∧ NormaliseTitle id " Hello World. ".toList = "hello-world".toList ∧
      ' ' ∉ NormaliseTitle id " Hello World. ".toList :=
  ⟨caseTableOK_id, by decide,
    (normaliseTitle_lowercased_trimmed_hyphenated id caseTableOK_id " Hello World. ".toList).2.1⟩

/-- C10, the code at the failing input. Two saves of a new document whose title
is `a[b` use the same version identifier 5: both succeed, the second patch
file overwrites the first, and `GetPatches` returns no entry at all, where
one distinct identifier was used. -/
theorem colliding_saves_bracket_title_no_entry (dmp : DiffMatchPatch) (U : Char → Char) :
    ∃ w, saveAll dmp U bracketPage newWorld [("x".toList, 5), ("y".toList, 5)] = .ok w ∧
      w.versions = some [("a[b_5.md".toList,
        dmp.PatchToText (dmp.PatchMake (dmp.DiffMain [] "y".toList false)))] ∧
      (GetPatches dmp U bracketPage w).map List.length = .ok 0 ∧
      ([5, 5] : List Int).dedup.length = 1 :=
  ⟨_, rfl, rfl, rfl, by decide⟩

/-- C11, the code at the failing input. The titles `.`, `...` and the title made
of one space are normalised to the empty string, and the empty string is
normalised to `index`: normalising twice is not normalising once. On a server
that serves `/w` the slug `...` names the file `/w/.md`, and its normalised
title, as the redirect after a save sends it back, names `/w/index.md`. -/
theorem normaliseTitle_dots_not_idempotent (U : Char → Char) :
    NormaliseTitle U ".".toList = [] ∧
      NormaliseTitle U (NormaliseTitle U ".".toList) = "index".toList ∧
      NormaliseTitle U (NormaliseTitle U "...".toList) ≠ NormaliseTitle U "...".toList ∧
      NormaliseTitle U (NormaliseTitle U " ".toList) ≠ NormaliseTitle U " ".toList ∧
      SlugToAbsolutePath U ⟨"/w".toList⟩ "...".toList = ("/w/.md".toList, none) ∧
      SlugToAbsolutePath U ⟨"/w".toList⟩ (NormaliseTitle U "...".toList) =
        ("/w/index.md".toList, none) := by
  have h1 : NormaliseTitle U ".".toList = [] := rfl
  have h3 : NormaliseTitle U "...".toList = [] := rfl
  have hs : NormaliseTitle U " ".toList = [] := rfl
  have hi : NormaliseTitle U [] = "index".toList := rfl
  refine ⟨h1, ?_, (NormaliseTitle_twice_of_eq_nil U "...".toList h3).2,
    (NormaliseTitle_twice_of_eq_nil U " ".toList hs).2, rfl, ?_⟩
  · rw [h1, hi]
  · rw [h3]
    rfl

end Mimir
